import Mathlib

/-!
Verification of the octane repository's octree data structure and renderer
state machine, as described in its specification.

The development shallowly embeds the Rust source:

* `src/crates/common/src/octree.rs` — the sparse linear octree
  (`Octree::new`, `Octree::place`, `Octree::get_node`, `Octree::add_node`,
  `Octree::get_position_hierarchy`, `Node::default`);
* `src/crates/common/src/render.rs` — the renderer lifecycle
  (`Vulkan::init` physical-device selection, `Vulkan::draw_batch` rebuild /
  frame-submission logic, `Vulkan::resize`).

Machine integers are modelled as `Nat`; the `u32` casts that can overflow
are written with explicit `% 2 ^ 32`, and `u32::MAX` is the literal
`4294967295`.  Rust `Vec` indexing is modelled with `List.getD` (the
out-of-bounds default is never reached on the states the theorems speak
about, where indices are proved in bounds).  Rust panics are modelled by
`Option` (`none` = panic).
-/

/-! ## Octree data model (octree.rs) -/

/-- `u32::MAX`, the sentinel used by `octree.rs` for "no children". -/
def U32MAX : Nat := 4294967295

/-- `Node` from octree.rs: `child : u32`, `valid : u32`, `block : u32`. -/
structure Node where
  child : Nat
  valid : Nat
  block : Nat
deriving DecidableEq, Repr

/-- `Node::default()`: `child = u32::MAX`, `valid = 0`, `block = 42069`. -/
def defaultNode : Node := { child := U32MAX, valid := 0, block := 42069 }

/-- The `Octree` struct (octree.rs).  The `node_count` and `holes` fields are
omitted: `node_count` is written once in `new` and only read by the debug
printer, and `holes` is declared but never used by any operation. -/
structure Octree where
  size : Nat
  data : List Node
deriving DecidableEq, Repr

/-- `Octree::new()`: one default root node, size 0. -/
def octreeNew : Octree := { size := 0, data := [defaultNode] }

/-- The loop body chain of `Octree::get_position_hierarchy`: at depth
`n + 1` the halved size is `hsize = 2 ^ n`; the octant bits are
`px = (x >= hsize)`, `py`, `pz`; the mask is `1 << (px * 4 + py * 2 + pz)`;
the coordinates are recentred by subtracting `p? * hsize`. -/
def hierLevels : Nat → Nat → Nat → Nat → List Nat
  | 0, _, _, _ => []
  | n + 1, x, y, z =>
    let hsize := 2 ^ n
    let px := if x ≥ hsize then 1 else 0
    let py := if y ≥ hsize then 1 else 0
    let pz := if z ≥ hsize then 1 else 0
    2 ^ (px * 4 + py * 2 + pz) ::
      hierLevels n (x - px * hsize) (y - py * hsize) (z - pz * hsize)

/-- `Octree::get_position_hierarchy`: runs the halving loop `self.size`
times starting from `hsize = 2 ^ self.size / 2`. -/
def getPositionHierarchy (t : Octree) (x y z : Nat) : List Nat :=
  hierLevels t.size x y z

/-- Bit position of a single-bit octant mask (the masks produced by the
encoder are exactly `2 ^ i` with `i < 8`). -/
def maskIndex : Nat → Nat
  | 1 => 0
  | 2 => 1
  | 4 => 2
  | 8 => 3
  | 16 => 4
  | 32 => 5
  | 64 => 6
  | 128 => 7
  | _ => 0

/-- Decoder from the specification's words: re-walk the returned masks and
accumulate the selected sub-cube offsets per level.  At a level whose suffix
has length `k` the sub-cube half-size is `2 ^ k`; the octant index `i`
contributes `i / 4` to x, `(i / 2) % 2` to y and `i % 2` to z. -/
def decodeHierarchy : List Nat → Nat × Nat × Nat
  | [] => (0, 0, 0)
  | m :: ms =>
    let r := decodeHierarchy ms
    let i := maskIndex m
    let h := 2 ^ ms.length
    ((i / 4) * h + r.1, ((i / 2) % 2) * h + r.2.1, (i % 2) * h + r.2.2)

theorem hierLevels_length (n x y z : Nat) : (hierLevels n x y z).length = n := by
  induction n generalizing x y z with
  | zero => rfl
  | succ n ih => simp [hierLevels, ih]

theorem hierLevels_roundtrip (n x y z : Nat) (hx : x < 2 ^ n) (hy : y < 2 ^ n)
    (hz : z < 2 ^ n) : decodeHierarchy (hierLevels n x y z) = (x, y, z) := by
  induction n generalizing x y z with
  | zero =>
    interval_cases x
    interval_cases y
    interval_cases z
    rfl
  | succ n ih =>
    have hpow : (2 : Nat) ^ (n + 1) = 2 ^ n + 2 ^ n := by ring
    rw [hpow] at hx hy hz
    simp only [hierLevels, decodeHierarchy, hierLevels_length]
    split_ifs with h1 h2 h3 <;>
      · rw [ih _ _ _ (by omega) (by omega) (by omega)]
        norm_num [maskIndex, Prod.mk.injEq]
        try omega

/-- C1: the position-hierarchy round trip.  For every depth `d` in `[1, 8]`
and coordinates `0 ≤ x, y, z < 2 ^ d`, encoding with the tree size set to
`d` and then decoding (re-walking the masks and accumulating the sub-cube
offsets per level) reproduces `(x, y, z)` exactly. -/
theorem position_hierarchy_roundtrip (d x y z : Nat) (hd1 : 1 ≤ d) (hd8 : d ≤ 8)
    (hx : x < 2 ^ d) (hy : y < 2 ^ d) (hz : z < 2 ^ d) :
    decodeHierarchy (getPositionHierarchy { size := d, data := [defaultNode] } x y z)
      = (x, y, z) :=
  hierLevels_roundtrip d x y z hx hy hz

/-- Witness for C1 at depth 3 and coordinate (5, 3, 6). -/
theorem position_hierarchy_roundtrip_witness :
    1 ≤ 3 ∧ 3 ≤ 8 ∧ 5 < 2 ^ 3 ∧ 3 < 2 ^ 3 ∧ 6 < 2 ^ 3 ∧
      decodeHierarchy (getPositionHierarchy { size := 3, data := [defaultNode] } 5 3 6)
        = (5, 3, 6) :=
  ⟨by decide, by decide, by decide, by decide, by decide,
    position_hierarchy_roundtrip 3 5 3 6 (by decide) (by decide) (by decide)
      (by decide) (by decide)⟩

/-! ## Renderer data model (render.rs) -/

/-- `vk::PhysicalDeviceType` (libs/vk). -/
inductive PhysicalDeviceType where
  | Other
  | Integrated
  | Discrete
  | Virtual
  | Cpu
deriving DecidableEq, Repr

/-- The fields of `vk::PhysicalDeviceProperties` that `Vulkan::init` reads. -/
structure PhysicalDeviceProps where
  deviceType : PhysicalDeviceType
  maxImageDimension2d : Nat
deriving DecidableEq, Repr

/-- The suitability score computed by `Vulkan::init`: 420 if the device type
is discrete, plus `limits.max_image_dimension_2d`. -/
def suitability (p : PhysicalDeviceProps) : Nat :=
  (if p.deviceType = PhysicalDeviceType.Discrete then 420 else 0) + p.maxImageDimension2d

/-- Stable insertion into an ascending list: the new element goes after all
existing elements that are `le` it. -/
def sortInsert (le : α → α → Bool) (a : α) : List α → List α
  | [] => [a]
  | b :: l => if le b a then b :: sortInsert le a l else a :: b :: l

/-- Stable ascending sort (insertion sort).  Models Rust's stable
`slice::sort_by` with an ascending comparator: for a total preorder both
produce the same list, the unique ascending reordering that keeps equal
elements in their original order. -/
def stableSort (le : α → α → Bool) : List α → List α
  | [] => []
  | a :: l => sortInsert le a (stableSort le l)

/-- Physical-device selection from `Vulkan::init` (render.rs lines 789-820):
score every candidate, sort the scored list ascending with `sort_by`, and
take element 0 (`candidates.remove(0)`).  An empty enumeration panics
("no suitable gpu"), modelled as `none`. -/
def selectPhysicalDevice (candidates : List PhysicalDeviceProps) : Option PhysicalDeviceProps :=
  match stableSort (fun a b => decide (a.1 ≤ b.1))
      (candidates.map (fun c => (suitability c, c))) with
  | [] => none
  | best :: _ => some best.2

/-- A discrete GPU with a large capability metric: suitability 1420. -/
def discreteGpu : PhysicalDeviceProps := ⟨PhysicalDeviceType.Discrete, 1000⟩

/-- A weak non-discrete GPU: suitability 100. -/
def weakGpu : PhysicalDeviceProps := ⟨PhysicalDeviceType.Other, 100⟩

/-- C4 (code bug): with candidates enumerated as [discreteGpu, weakGpu],
`Vulkan::init` selects `weakGpu`, whose suitability score is strictly
lower: the code sorts ascending by score and takes element 0, i.e. the
LOWEST-scoring candidate, while the specified behaviour (discrete
preferred, highest score wins) would select `discreteGpu`. -/
theorem physical_device_selection_picks_lowest :
    selectPhysicalDevice [discreteGpu, weakGpu] = some weakGpu ∧
      suitability weakGpu < suitability discreteGpu := by
  constructor
  · rfl
  · decide

/-- The `Batch` struct (render.rs lines 40-45): the four shader module
paths active for the current draw call. -/
structure Batch where
  vertexShader : String
  fragmentShader : String
  seedShader : String
  jfaShader : String
deriving DecidableEq, Repr

/-- `Batch::default()`: empty string slices. -/
def defaultBatch : Batch := ⟨"", "", "", ""⟩

/-- The swapchain-dependent `VulkanRenderData`, tracked by identity: the
swapchain handle created for it and the predecessor swapchain handle that
was passed to `VulkanRenderData::init` as `old_swapchain`. -/
structure RenderData where
  swapchain : Nat
  oldSwapchain : Option Nat
deriving DecidableEq, Repr

/-- The shader-dependent `VulkanComputeData`, tracked by the shader paths
whose cached modules its seed / jfa pipelines were built from. -/
structure ComputeData where
  seedShader : String
  jfaShader : String
deriving DecidableEq, Repr

/-- The `Vulkan` renderer state (render.rs lines 253-287).  GPU objects are
opaque handles, so instance-scoped objects are tracked as identity tokens
(`Nat`); `shaders` is the key set of the shader-module cache `HashMap`;
`uboResolution` models `ubo.resolution : Vector<f32, 2>` by the integer pair
it is cast from (the `u32` → `f32` casts involved are exact for any realistic
resolution, far below 2^24).  `nextId` is the supply of fresh identity
tokens for newly created swapchains.  `fenceSignaled` is the signaled state
of the in-flight fence `in_flight_fence` (whether a `vkWaitForFences` on it
with infinite timeout would return). -/
structure Vulkan where
  instanceId : Nat
  surface : Nat
  physicalDevice : Nat
  device : Nat
  queue : Nat
  commandPool : Nat
  commandBuffer : Nat
  imageAvailableSemaphore : Nat
  renderFinishedSemaphore : Nat
  inFlightFence : Nat
  instanceBuffer : Nat
  dataBuffer : Nat
  stagingBuffer : Nat
  cubeletData : Nat
  cubeletDataView : Nat
  cubeletDataSampler : Nat
  cubeletSdf : Nat
  cubeletSdfView : Nat
  cubeletSdfSampler : Nat
  shaders : List String
  extent : Nat × Nat
  uboResolution : Nat × Nat
  uboRenderDistance : Nat
  renderData : Option RenderData
  computeData : Option ComputeData
  lastBatch : Batch
  nextId : Nat
  fenceSignaled : Bool
deriving DecidableEq, Repr

/-- The relevant result of `Vulkan::init` (render.rs lines 740-1312):
distinct instance-scoped handles, an empty shader cache, extent and
resolution uniform (960, 540), no render data, no compute data,
`last_batch = Batch::default()`, and the in-flight fence *signaled*: the
wrapper creates every fence with `flags = 0x00000001`
(`VK_FENCE_CREATE_SIGNALED_BIT`, vk lib.rs line 4480). -/
def initVulkan (renderDistance : Nat) : Vulkan :=
  { instanceId := 0, surface := 1, physicalDevice := 2, device := 3, queue := 4,
    commandPool := 5, commandBuffer := 6, imageAvailableSemaphore := 7,
    renderFinishedSemaphore := 8, inFlightFence := 9, instanceBuffer := 10,
    dataBuffer := 11, stagingBuffer := 12, cubeletData := 13, cubeletDataView := 14,
    cubeletDataSampler := 15, cubeletSdf := 16, cubeletSdfView := 17,
    cubeletSdfSampler := 18, shaders := [], extent := (960, 540),
    uboResolution := (960, 540), uboRenderDistance := renderDistance,
    renderData := none, computeData := none, lastBatch := defaultBatch,
    nextId := 100, fenceSignaled := true }

/-- Observable side effects of one `draw_batch` call that the claims talk
about. -/
inductive Effect where
  | rebuildRender
  | rebuildCompute
  | warnAcquire
  | submitDraw
  | present
  | warnPresent
deriving DecidableEq, Repr

/-- Outcome of one `draw_batch` call: the call returns (with the new state
and its observable effects), panics (a failed `expect`), or never returns
because it blocks forever in `vk::Fence::wait(…, u64::MAX)`. -/
inductive DrawResult where
  | completes (s : Vulkan) (effects : List Effect)
  | panics
  | blocks
deriving DecidableEq, Repr

/-- The state and effects of a completed call (defaults for the other
outcomes), used to name concrete frames in witness scenarios. -/
def drawOut (r : DrawResult) (dflt : Vulkan) : Vulkan × List Effect :=
  match r with
  | DrawResult.completes s e => (s, e)
  | _ => (dflt, [])

/-- The shader cache after `self.shaders.entry(path).or_insert_with(...)`. -/
def cacheAfterLoad (shaders : List String) (path : String) : List String :=
  if path ∈ shaders then shaders else path :: shaders

/-- Whether `or_insert_with` ran its closure, i.e. whether the module at
`path` was missing from the cache and was freshly loaded. -/
def wasLoaded (shaders : List String) (path : String) : Bool :=
  decide (path ∉ shaders)

/-- `Vulkan::draw_batch` (render.rs lines 1316-1820).

Parameters beyond the batch model the environment of the call:
`stale` is the set of cache keys that the shader-source rescan (lines
1432-1521) evicted because a source file changed and recompiled
successfully (`self.shaders.remove(out_path)`); `acquire` is the result of
`swapchain.acquire_next_image` (`none` = failure); `presentOk` the result
of `queue.present`.

Steps in source order: geometry/instance/uniform uploads (no tracked state),
the rescan eviction, the four lazy `or_insert_with` loads setting
`reload_graphics` / `reload_compute`, the graphics rebuild (condition:
fresh vertex or fragment load, or vertex or fragment path differs from
`last_batch` — the new swapchain reuses the old one as predecessor), the
compute rebuild (condition in the source: fresh compute load, or the JFA
path differs from `last_batch`), `last_batch = batch`, the render-data
`expect` (a missing render data panics), then the in-flight fence protocol
(render.rs lines 1664-1673): `vk::Fence::wait(…, u64::MAX)` — which blocks
forever if the fence is not signaled, since `acquire_next_image` is called
with `fence: None` and nothing else ever signals it — then
`vk::Fence::reset`, un-signaling it, then acquisition (failure: warn and
return with the state changes so far kept and the fence left un-signaled),
descriptor updates, command recording, the draw submit — the only
operation that re-signals the fence (render.rs lines 1804-1806) — and
present (failure: warn only). -/
def drawBatch (s : Vulkan) (batch : Batch) (stale : List String)
    (acquire : Option Nat) (presentOk : Bool) : DrawResult :=
  let shaders0 := s.shaders.filter (fun p => decide (p ∉ stale))
  let lv := wasLoaded shaders0 batch.vertexShader
  let shaders1 := cacheAfterLoad shaders0 batch.vertexShader
  let lf := wasLoaded shaders1 batch.fragmentShader
  let shaders2 := cacheAfterLoad shaders1 batch.fragmentShader
  let ls := wasLoaded shaders2 batch.seedShader
  let shaders3 := cacheAfterLoad shaders2 batch.seedShader
  let lj := wasLoaded shaders3 batch.jfaShader
  let shaders4 := cacheAfterLoad shaders3 batch.jfaShader
  let reloadGraphics := lv || lf
  let reloadCompute := ls || lj
  let rebuildG := reloadGraphics || (s.lastBatch.vertexShader != batch.vertexShader)
    || (s.lastBatch.fragmentShader != batch.fragmentShader)
  let rebuildC := reloadCompute || (s.lastBatch.jfaShader != batch.jfaShader)
  let renderData1 := if rebuildG then
      some { swapchain := s.nextId, oldSwapchain := s.renderData.map (fun d => d.swapchain) }
    else s.renderData
  let computeData1 := if rebuildC then
      some { seedShader := batch.seedShader, jfaShader := batch.jfaShader }
    else s.computeData
  let effects0 := (if rebuildG then [Effect.rebuildRender] else []) ++
    (if rebuildC then [Effect.rebuildCompute] else [])
  let s1 : Vulkan :=
    { s with
        shaders := shaders4
        renderData := renderData1
        computeData := computeData1
        lastBatch := batch
        nextId := if rebuildG then s.nextId + 1 else s.nextId }
  match renderData1 with
  | none => DrawResult.panics
  | some _ =>
    if s.fenceSignaled then
      match acquire with
      | none =>
        DrawResult.completes { s1 with fenceSignaled := false }
          (effects0 ++ [Effect.warnAcquire])
      | some _ =>
        DrawResult.completes { s1 with fenceSignaled := true }
          (effects0 ++ [Effect.submitDraw, Effect.present] ++
            (if presentOk then [] else [Effect.warnPresent]))
    else DrawResult.blocks

/-- `Vulkan::resize` (render.rs lines 1822-1853): wait for the device, look
up the cached vertex and fragment modules of `last_batch` (a missing module
panics the `HashMap` index), store the new extent and resolution uniform,
take the old render data (`unwrap` panics if absent) and rebuild it with
the old swapchain passed as the new swapchain's predecessor. -/
def resize (s : Vulkan) (resolution : Nat × Nat) : Option Vulkan :=
  if s.lastBatch.vertexShader ∈ s.shaders ∧ s.lastBatch.fragmentShader ∈ s.shaders then
    match s.renderData with
    | none => none
    | some rd =>
      some { s with
              extent := resolution
              uboResolution := resolution
              renderData := some { swapchain := s.nextId, oldSwapchain := some rd.swapchain }
              nextId := s.nextId + 1 }
  else none

theorem self_mem_cacheAfterLoad (shs : List String) (p : String) :
    p ∈ cacheAfterLoad shs p := by
  unfold cacheAfterLoad
  split <;> simp_all

theorem mem_cacheAfterLoad_of_mem (shs : List String) (p q : String) (h : q ∈ shs) :
    q ∈ cacheAfterLoad shs p := by
  unfold cacheAfterLoad
  split <;> simp_all

theorem mem_cacheAfterLoad_iff (shs : List String) (p q : String) :
    q ∈ cacheAfterLoad shs p ↔ q = p ∨ q ∈ shs := by
  unfold cacheAfterLoad
  split
  · rename_i hp
    constructor
    · intro h
      exact Or.inr h
    · intro h
      rcases h with h | h
      · rw [h]
        exact hp
      · exact h
  · simp [List.mem_cons]

/-- After any completed `draw_batch`, the last batch is the given batch, all
four of its shader modules are cached, render data is present, and the
in-flight fence is signaled iff the frame's acquisition succeeded (only the
draw submit re-signals the fence the call reset). -/
theorem drawBatch_post (s : Vulkan) (batch : Batch) (stale : List String)
    (acq : Option Nat) (pOk : Bool) (s1 : Vulkan) (e1 : List Effect)
    (h : drawBatch s batch stale acq pOk = DrawResult.completes s1 e1) :
    s1.lastBatch = batch ∧ batch.vertexShader ∈ s1.shaders ∧
      batch.fragmentShader ∈ s1.shaders ∧ batch.seedShader ∈ s1.shaders ∧
      batch.jfaShader ∈ s1.shaders ∧ (∃ rd, s1.renderData = some rd) ∧
      s1.fenceSignaled = acq.isSome := by
  simp only [drawBatch] at h
  split at h
  · exact absurd h (by simp)
  · rename_i rd heq
    have hmem : batch.vertexShader ∈ cacheAfterLoad (cacheAfterLoad (cacheAfterLoad
        (cacheAfterLoad (s.shaders.filter (fun p => decide (p ∉ stale)))
          batch.vertexShader) batch.fragmentShader) batch.seedShader) batch.jfaShader := by
      apply mem_cacheAfterLoad_of_mem
      apply mem_cacheAfterLoad_of_mem
      apply mem_cacheAfterLoad_of_mem
      exact self_mem_cacheAfterLoad _ _
    split at h
    · split at h <;>
        · simp only [DrawResult.completes.injEq] at h
          obtain ⟨hs1, he1⟩ := h
          subst hs1
          refine ⟨rfl, hmem, ?_, ?_, ?_, ?_, rfl⟩
          · apply mem_cacheAfterLoad_of_mem
            apply mem_cacheAfterLoad_of_mem
            exact self_mem_cacheAfterLoad _ _
          · apply mem_cacheAfterLoad_of_mem
            exact self_mem_cacheAfterLoad _ _
          · exact self_mem_cacheAfterLoad _ _
          · exact ⟨rd, heq⟩
    · exact absurd h (by simp)

/-- If the batch equals the last batch, all four modules are cached, render
data is present, the in-flight fence is signaled, and no shader sources
changed on disk, then `draw_batch` rebuilds nothing: the state is unchanged
apart from `last_batch` (a no-op write) and the fence state, and the
emitted effects contain no rebuild. -/
theorem drawBatch_no_rebuild (s : Vulkan) (rd : RenderData)
    (hv : s.lastBatch.vertexShader ∈ s.shaders)
    (hf : s.lastBatch.fragmentShader ∈ s.shaders)
    (hs : s.lastBatch.seedShader ∈ s.shaders)
    (hj : s.lastBatch.jfaShader ∈ s.shaders)
    (hrd : s.renderData = some rd)
    (hfence : s.fenceSignaled = true) (acq : Option Nat) (pOk : Bool) :
    drawBatch s s.lastBatch [] acq pOk =
      DrawResult.completes { s with fenceSignaled := acq.isSome }
        (match acq with
        | none => [Effect.warnAcquire]
        | some _ => [Effect.submitDraw, Effect.present] ++
            (if pOk then [] else [Effect.warnPresent])) := by
  cases acq <;> cases pOk <;>
    simp [drawBatch, wasLoaded, cacheAfterLoad, hv, hf, hs, hj, hrd, hfence]

/-- A `draw_batch` call whose vertex module (resp. JFA module, distinct from
the other three paths) is not yet cached sets `reload_graphics` (resp.
`reload_compute`) and therefore rebuilds. -/
theorem drawBatch_fresh_rebuilds (s : Vulkan) (batch : Batch) (acq : Option Nat)
    (pOk : Bool) (s1 : Vulkan) (e1 : List Effect)
    (h : drawBatch s batch [] acq pOk = DrawResult.completes s1 e1) :
    (batch.vertexShader ∉ s.shaders → Effect.rebuildRender ∈ e1) ∧
      (batch.jfaShader ∉ s.shaders → batch.jfaShader ≠ batch.vertexShader →
        batch.jfaShader ≠ batch.fragmentShader → batch.jfaShader ≠ batch.seedShader →
        Effect.rebuildCompute ∈ e1) := by
  have hfil : s.shaders.filter (fun p => decide (p ∉ ([] : List String))) = s.shaders := by
    simp
  simp only [drawBatch, hfil] at h
  split at h
  · exact absurd h (by simp)
  · split at h
    · split at h <;>
      · simp only [DrawResult.completes.injEq] at h
        obtain ⟨hs1, he1⟩ := h
        subst he1
        constructor
        · intro hnv
          have hlv : wasLoaded s.shaders batch.vertexShader = true := by
            simp [wasLoaded, hnv]
          simp [hlv]
        · intro hnj hj1 hj2 hj3
          have hlj : wasLoaded (cacheAfterLoad (cacheAfterLoad (cacheAfterLoad s.shaders
              batch.vertexShader) batch.fragmentShader) batch.seedShader) batch.jfaShader
              = true := by
            simp [wasLoaded, mem_cacheAfterLoad_iff, hnj, hj1, hj2, hj3]
          simp [hlj]
    · exact absurd h (by simp)

/-- An acquisition-failure frame emits a warning and no submit or present. -/
theorem drawBatch_acquire_fail (s : Vulkan) (batch : Batch) (stale : List String)
    (pOk : Bool) (s1 : Vulkan) (e1 : List Effect)
    (h : drawBatch s batch stale none pOk = DrawResult.completes s1 e1) :
    Effect.submitDraw ∉ e1 ∧ Effect.present ∉ e1 ∧ Effect.warnAcquire ∈ e1 := by
  simp only [drawBatch] at h
  split at h
  · exact absurd h (by simp)
  · split at h
    · simp only [DrawResult.completes.injEq] at h
      obtain ⟨hs1, he1⟩ := h
      subst he1
      refine ⟨?_, ?_, ?_⟩ <;> (split_ifs <;> simp)
    · exact absurd h (by simp)

/-- A `draw_batch` call on a state whose in-flight fence is un-signaled and
whose render data exists never returns: it blocks forever in
`vk::Fence::wait(…, u64::MAX)`, whatever the environment does. -/
theorem drawBatch_unsignaled_blocks (s : Vulkan) (batch : Batch) (rd : RenderData)
    (hrd : s.renderData = some rd) (hfence : s.fenceSignaled = false)
    (stale : List String) (acq : Option Nat) (pOk : Bool) :
    drawBatch s batch stale acq pOk = DrawResult.blocks := by
  simp only [drawBatch, hfence]
  split
  · rename_i heq
    split at heq
    · exact absurd heq (by simp)
    · rw [hrd] at heq
      exact absurd heq (by simp)
  · simp

/-- C6 (code bug): when swapchain image acquisition fails during
`draw_batch`, the call does log the failure and return without submitting
or presenting — but the early return skips the draw submit, the only
operation that re-signals the in-flight fence the call has already reset,
so the fence stays un-signaled forever and the next `draw_batch` call with
the same batch blocks forever in `vk::Fence::wait(…, u64::MAX)` instead of
proceeding normally and completing a frame. -/
theorem acquire_failure_hangs_next_frame (s : Vulkan) (batch : Batch) (s1 : Vulkan)
    (e1 : List Effect)
    (h : drawBatch s batch [] none true = DrawResult.completes s1 e1) :
    Effect.submitDraw ∉ e1 ∧ Effect.present ∉ e1 ∧ Effect.warnAcquire ∈ e1 ∧
      s1.fenceSignaled = false ∧
      (∀ stale acq pOk, drawBatch s1 batch stale acq pOk = DrawResult.blocks) ∧
      drawBatch s1 batch [] (some 0) true = DrawResult.blocks := by
  obtain ⟨ha, hb, hc⟩ := drawBatch_acquire_fail _ _ _ _ _ _ h
  obtain ⟨hlb, hv, hf, hs, hj, ⟨rd, hrd⟩, hfen⟩ := drawBatch_post _ _ _ _ _ _ _ h
  have hblocks := fun stale acq pOk =>
    drawBatch_unsignaled_blocks s1 batch rd hrd hfen stale acq pOk
  exact ⟨ha, hb, hc, hfen, hblocks, hblocks [] (some 0) true⟩

/-- C8: calling `draw_batch` twice with the same batch never rebuilds during
the second call; and the rebuilds do happen during the first call whenever
its modules were not yet cached. -/
theorem same_batch_no_second_rebuild (s : Vulkan) (batch : Batch)
    (a1 a2 : Option Nat) (p1 p2 : Bool) (s1 s2 : Vulkan) (e1 e2 : List Effect)
    (h1 : drawBatch s batch [] a1 p1 = DrawResult.completes s1 e1)
    (h2 : drawBatch s1 batch [] a2 p2 = DrawResult.completes s2 e2) :
    Effect.rebuildRender ∉ e2 ∧ Effect.rebuildCompute ∉ e2 ∧
      (batch.vertexShader ∉ s.shaders → Effect.rebuildRender ∈ e1) ∧
      (batch.jfaShader ∉ s.shaders → batch.jfaShader ≠ batch.vertexShader →
        batch.jfaShader ≠ batch.fragmentShader → batch.jfaShader ≠ batch.seedShader →
        Effect.rebuildCompute ∈ e1) := by
  obtain ⟨hlb, hv, hf, hs, hj, ⟨rd, hrd⟩, hfen⟩ := drawBatch_post _ _ _ _ _ _ _ h1
  cases a1 with
  | none =>
    rw [drawBatch_unsignaled_blocks s1 batch rd hrd (by rw [hfen]; rfl) [] a2 p2] at h2
    exact absurd h2 (by simp)
  | some k1 =>
    have heq := drawBatch_no_rebuild s1 rd (by rw [hlb]; exact hv) (by rw [hlb]; exact hf)
      (by rw [hlb]; exact hs) (by rw [hlb]; exact hj) hrd (by rw [hfen]; rfl) a2 p2
    rw [hlb] at heq
    rw [heq] at h2
    simp only [DrawResult.completes.injEq] at h2
    obtain ⟨hs2, he2⟩ := h2
    subst he2
    obtain ⟨hx, hy⟩ := drawBatch_fresh_rebuilds _ _ _ _ _ _ h1
    refine ⟨?_, ?_, hx, hy⟩ <;> (cases a2 <;> cases p2 <;> simp)

/-- Frame 1 of the C5 scenario: seed shader "a.cs", jfa shader "b.cs". -/
def seedBatchA : Batch := ⟨"v", "f", "a.cs", "b.cs"⟩

/-- Frame 2 of the C5 scenario: the seed shader path changes to "b.cs"
(already cached, it was frame 1's jfa module); the jfa path is unchanged. -/
def seedBatchB : Batch := ⟨"v", "f", "b.cs", "b.cs"⟩

/-- Renderer state after frame 1 of the C5 scenario. -/
def c5s1 : Vulkan :=
  (drawOut (drawBatch (initVulkan 8) seedBatchA [] (some 0) true) (initVulkan 8)).1

/-- Renderer state after frame 2 of the C5 scenario. -/
def c5s2 : Vulkan :=
  (drawOut (drawBatch c5s1 seedBatchB [] (some 0) true) (initVulkan 8)).1

/-- Effects of frame 2 of the C5 scenario. -/
def c5e2 : List Effect :=
  (drawOut (drawBatch c5s1 seedBatchB [] (some 0) true) (initVulkan 8)).2

/-- C5 (code bug): the compute-rebuild condition at render.rs line 1633
tests only `reload_compute || last_batch.jfa_shader != batch.jfa_shader`
and never compares the seed path.  Starting from `init` and drawing frame 1
with `seedBatchA`, frame 2 with `seedBatchB` changes the seed compute
shader relative to the last batch, yet no compute-data rebuild happens and
the compute data still holds frame 1's seed pipeline. -/
theorem seed_change_without_compute_rebuild :
    drawBatch c5s1 seedBatchB [] (some 0) true = DrawResult.completes c5s2 c5e2 ∧
      c5s1.lastBatch.seedShader ≠ seedBatchB.seedShader ∧
      Effect.rebuildCompute ∉ c5e2 ∧
      c5s2.computeData = some ⟨"a.cs", "b.cs"⟩ ∧
      c5s2.computeData ≠ some ⟨seedBatchB.seedShader, seedBatchB.jfaShader⟩ := by
  refine ⟨rfl, ?_, ?_, rfl, ?_⟩ <;> decide

/-- Helper: `resize((1920, 1080))` stores resolution uniform (1920, 1080)
(the exact `f32` pair (1920.0, 1080.0)) and extent (1920, 1080), rebuilds
render data passing the previous swapchain as the new swapchain's
predecessor, and leaves every instance-scoped field unchanged. -/
theorem resize_rebuilds_render_data (s : Vulkan) (rd : RenderData)
    (hrd : s.renderData = some rd)
    (hv : s.lastBatch.vertexShader ∈ s.shaders)
    (hf : s.lastBatch.fragmentShader ∈ s.shaders) :
    ∃ s2, resize s (1920, 1080) = some s2 ∧
      s2.uboResolution = (1920, 1080) ∧ s2.extent = (1920, 1080) ∧
      (∃ nrd, s2.renderData = some nrd ∧ nrd.oldSwapchain = some rd.swapchain) ∧
      s2.instanceId = s.instanceId ∧ s2.surface = s.surface ∧
      s2.physicalDevice = s.physicalDevice ∧ s2.device = s.device ∧
      s2.queue = s.queue ∧ s2.commandPool = s.commandPool ∧
      s2.commandBuffer = s.commandBuffer ∧
      s2.imageAvailableSemaphore = s.imageAvailableSemaphore ∧
      s2.renderFinishedSemaphore = s.renderFinishedSemaphore ∧
      s2.inFlightFence = s.inFlightFence ∧ s2.instanceBuffer = s.instanceBuffer ∧
      s2.dataBuffer = s.dataBuffer ∧ s2.stagingBuffer = s.stagingBuffer ∧
      s2.cubeletData = s.cubeletData ∧ s2.cubeletDataView = s.cubeletDataView ∧
      s2.cubeletDataSampler = s.cubeletDataSampler ∧ s2.cubeletSdf = s.cubeletSdf ∧
      s2.cubeletSdfView = s.cubeletSdfView ∧
      s2.cubeletSdfSampler = s.cubeletSdfSampler ∧
      s2.shaders = s.shaders ∧ s2.lastBatch = s.lastBatch := by
  have heq : resize s (1920, 1080) = some
      { s with
          extent := (1920, 1080)
          uboResolution := (1920, 1080)
          renderData := some { swapchain := s.nextId, oldSwapchain := some rd.swapchain }
          nextId := s.nextId + 1 } := by
    unfold resize
    rw [if_pos ⟨hv, hf⟩, hrd]
  exact ⟨_, heq, rfl, rfl, ⟨_, rfl, rfl⟩, rfl, rfl, rfl, rfl, rfl, rfl, rfl, rfl,
    rfl, rfl, rfl, rfl, rfl, rfl, rfl, rfl, rfl, rfl, rfl, rfl, rfl⟩

/-- The batch used by the C6 witness scenario. -/
def c6batch : Batch := ⟨"v", "f", "c", "j"⟩

/-- State after a first frame from `init` whose acquisition fails. -/
def c6s1 : Vulkan :=
  (drawOut (drawBatch (initVulkan 8) c6batch [] none true) (initVulkan 8)).1

/-- Effects of that acquisition-failure frame. -/
def c6e1 : List Effect :=
  (drawOut (drawBatch (initVulkan 8) c6batch [] none true) (initVulkan 8)).2

/-- Witness for C6: a concrete renderer fresh from `init` whose first
frame's acquisition fails; the second frame with the same batch hangs. -/
theorem acquire_failure_hangs_next_frame_witness :
    drawBatch (initVulkan 8) c6batch [] none true = DrawResult.completes c6s1 c6e1 ∧
      (Effect.submitDraw ∉ c6e1 ∧ Effect.present ∉ c6e1 ∧
        Effect.warnAcquire ∈ c6e1 ∧ c6s1.fenceSignaled = false ∧
        (∀ stale acq pOk, drawBatch c6s1 c6batch stale acq pOk = DrawResult.blocks) ∧
        drawBatch c6s1 c6batch [] (some 0) true = DrawResult.blocks) :=
  ⟨rfl, acquire_failure_hangs_next_frame (initVulkan 8) c6batch c6s1 c6e1 rfl⟩

/-- The batch used by the C8 witness scenario. -/
def c8batch : Batch := ⟨"vert", "frag", "seed", "jfa"⟩

/-- State and effects after the first C8 frame from `init`. -/
def c8r1 : Vulkan × List Effect :=
  drawOut (drawBatch (initVulkan 8) c8batch [] (some 0) true) (initVulkan 8)

/-- State and effects after the second C8 frame with the same batch. -/
def c8r2 : Vulkan × List Effect :=
  drawOut (drawBatch c8r1.1 c8batch [] (some 1) true) (initVulkan 8)

/-- Witness for C8: two concrete frames with the same batch from `init`. -/
theorem same_batch_no_second_rebuild_witness :
    drawBatch (initVulkan 8) c8batch [] (some 0) true
        = DrawResult.completes c8r1.1 c8r1.2 ∧
      drawBatch c8r1.1 c8batch [] (some 1) true
        = DrawResult.completes c8r2.1 c8r2.2 ∧
      (Effect.rebuildRender ∉ c8r2.2 ∧ Effect.rebuildCompute ∉ c8r2.2 ∧
        (c8batch.vertexShader ∉ (initVulkan 8).shaders → Effect.rebuildRender ∈ c8r1.2) ∧
        (c8batch.jfaShader ∉ (initVulkan 8).shaders → c8batch.jfaShader ≠ c8batch.vertexShader →
          c8batch.jfaShader ≠ c8batch.fragmentShader → c8batch.jfaShader ≠ c8batch.seedShader →
          Effect.rebuildCompute ∈ c8r1.2)) :=
  ⟨rfl, rfl, same_batch_no_second_rebuild (initVulkan 8) c8batch (some 0) (some 1)
    true true c8r1.1 c8r2.1 c8r1.2 c8r2.2 rfl rfl⟩

/-- The instance-scoped state of spec §3: graphics instance, surface,
physical device, logical device, queue, command pool and buffer, the two
semaphores, the fence, the three buffers, the cubelet color / SDF images
with views and samplers — together with the shader cache and last batch,
none of which `resize` may touch. -/
def InstanceScopeUnchanged (s s2 : Vulkan) : Prop :=
  s2.instanceId = s.instanceId ∧ s2.surface = s.surface ∧
    s2.physicalDevice = s.physicalDevice ∧ s2.device = s.device ∧
    s2.queue = s.queue ∧ s2.commandPool = s.commandPool ∧
    s2.commandBuffer = s.commandBuffer ∧
    s2.imageAvailableSemaphore = s.imageAvailableSemaphore ∧
    s2.renderFinishedSemaphore = s.renderFinishedSemaphore ∧
    s2.inFlightFence = s.inFlightFence ∧ s2.instanceBuffer = s.instanceBuffer ∧
    s2.dataBuffer = s.dataBuffer ∧ s2.stagingBuffer = s.stagingBuffer ∧
    s2.cubeletData = s.cubeletData ∧ s2.cubeletDataView = s.cubeletDataView ∧
    s2.cubeletDataSampler = s.cubeletDataSampler ∧ s2.cubeletSdf = s.cubeletSdf ∧
    s2.cubeletSdfView = s.cubeletSdfView ∧
    s2.cubeletSdfSampler = s.cubeletSdfSampler ∧
    s2.shaders = s.shaders ∧ s2.lastBatch = s.lastBatch

/-- C9 restated through `InstanceScopeUnchanged` (same content as
`resize_rebuilds_render_data`, used by the claim): `resize((1920, 1080))`
updates the stored extent and resolution uniform, rebuilds render data with
the old swapchain as predecessor, and leaves instance-scoped objects
untouched. -/
theorem resize_scenario (s : Vulkan) (rd : RenderData)
    (hrd : s.renderData = some rd)
    (hv : s.lastBatch.vertexShader ∈ s.shaders)
    (hf : s.lastBatch.fragmentShader ∈ s.shaders) :
    ∃ s2, resize s (1920, 1080) = some s2 ∧
      s2.uboResolution = (1920, 1080) ∧ s2.extent = (1920, 1080) ∧
      (∃ nrd, s2.renderData = some nrd ∧ nrd.oldSwapchain = some rd.swapchain) ∧
      InstanceScopeUnchanged s s2 := by
  obtain ⟨s2, h1, h2, h3, h4, h5⟩ := resize_rebuilds_render_data s rd hrd hv hf
  exact ⟨s2, h1, h2, h3, h4, h5⟩

/-- A concrete renderer state for the C9 witness. -/
def c9state : Vulkan :=
  { initVulkan 8 with
      shaders := ["v", "f"]
      lastBatch := ⟨"v", "f", "c", "j"⟩
      renderData := some { swapchain := 42, oldSwapchain := none } }

/-- Witness for C9 at the concrete state `c9state`. -/
theorem resize_scenario_witness :
    c9state.renderData = some { swapchain := 42, oldSwapchain := none } ∧
      c9state.lastBatch.vertexShader ∈ c9state.shaders ∧
      c9state.lastBatch.fragmentShader ∈ c9state.shaders ∧
      ∃ s2, resize c9state (1920, 1080) = some s2 ∧
        s2.uboResolution = (1920, 1080) ∧ s2.extent = (1920, 1080) ∧
        (∃ nrd, s2.renderData = some nrd ∧ nrd.oldSwapchain = some 42) ∧
        InstanceScopeUnchanged c9state s2 :=
  ⟨rfl, List.Mem.head _, List.Mem.tail _ (List.Mem.head _),
    resize_scenario c9state { swapchain := 42, oldSwapchain := none } rfl
      (List.Mem.head _) (List.Mem.tail _ (List.Mem.head _))⟩

/-! ## Octree operations (octree.rs) -/

/-- The set-bit positions of a `u32` value (bits 0..31). -/
def bitsOf (v : Nat) : Finset Nat := (Finset.range 32).filter (fun i => v.testBit i)

/-- `u32::count_ones`: the number of set bits of a `u32`. -/
def popcount (v : Nat) : Nat := (bitsOf v).card

/-- `self.data[index]`, totalised: out-of-bounds indexing (which panics in
Rust) returns `defaultNode`; on the states the theorems quantify over all
reads are proved in bounds. -/
def nodeAt : List Node → Nat → Node
  | [], _ => defaultNode
  | n :: _, 0 => n
  | _ :: rest, i + 1 => nodeAt rest i

/-- `Vec::insert(i, a)`: shift everything at positions `>= i` up by one.
Out of bounds (`i > len`, a Rust panic) leaves the list unchanged; never
reached from `add_node`, whose insertion positions are proved in bounds. -/
def insertAt : List Node → Nat → Node → List Node
  | l, 0, a => a :: l
  | [], _ + 1, _ => []
  | b :: l, i + 1, a => b :: insertAt l i a

/-- `Octree::get_node` (octree.rs lines 52-78) walking from `index`: panic
on a non-single-bit mask (`none`); at each level descend to
`child + popcount(valid & (mask - 1))` when the mask's bit is set in
`valid` and `child` is not the sentinel, else return `None`. -/
def getNodeGo (data : List Node) : Nat → List Nat → Option (Node × Nat)
  | index, [] => some (nodeAt data index, index)
  | index, mask :: rest =>
    if popcount mask ≠ 1 then none
    else
      let n := nodeAt data index
      if n.valid &&& mask = mask ∧ n.child ≠ U32MAX then
        getNodeGo data (n.child + popcount (n.valid &&& (mask - 1))) rest
      else none

/-- `Octree::get_node` from the root. -/
def getNode (t : Octree) (hierarchy : List Nat) : Option (Node × Nat) :=
  getNodeGo t.data 0 hierarchy

/-- The child-copy loop of `add_node` (octree.rs lines 112-117): for
`i in 0..q`, insert at `x = self.data[index].child + i` (re-read each
iteration) a copy of `self.data[node.child + i]` (reading `y` from the
pre-branch snapshot's child pointer).  The first argument pair is the
running counter `i` and the remaining iteration count. -/
def copyLoop (index oldChild : Nat) : Nat → Nat → List Node → List Node
  | _, 0, data => data
  | i, k + 1, data =>
    copyLoop index oldChild (i + 1) k
      (insertAt data ((nodeAt data index).child + i) (nodeAt data (oldChild + i)))

/-- `Octree::add_node` (octree.rs lines 80-128) walking from `index`,
returning the updated array and the final node's index (`none` models the
invalid-mask panic).  In the miss branch: snapshot the node, set the mask
bit, compute `p` from the updated mask, `q` = updated popcount minus one,
point `child` at the end of the array (`as u32` cast), copy the `q` old
children to the end, insert a fresh default node at position `p` of the
new run, and descend into it. -/
def addNodeGo : List Node → Nat → List Nat → Option (List Node × Nat)
  | data, index, [] => some (data, index)
  | data, index, mask :: rest =>
    if popcount mask ≠ 1 then none
    else
      let n := nodeAt data index
      if n.valid &&& mask = mask ∧ n.child ≠ U32MAX then
        addNodeGo data (n.child + popcount (n.valid &&& (mask - 1))) rest
      else
        let valid2 := n.valid ||| mask
        let p := popcount (valid2 &&& (mask - 1))
        let q := popcount valid2 - 1
        let data1 := data.set index { n with valid := valid2, child := data.length % 2 ^ 32 }
        let data2 := copyLoop index n.child 0 q data1
        let child := (nodeAt data2 index).child + p
        let data3 := insertAt data2 child defaultNode
        addNodeGo data3 child rest

/-- `Octree::place` (octree.rs lines 34-46): set `size = 8`, encode the
coordinate, `add_node`, and write the cubelet (a `u16`, value-preserving
`as u32`) into the final node's `block`. -/
def place (t : Octree) (x y z : Nat) (cubelet : Nat) : Option Octree :=
  let t1 : Octree := { t with size := 8 }
  (addNodeGo t1.data 0 (getPositionHierarchy t1 x y z)).map (fun r =>
    ⟨8, r.1.set r.2 { nodeAt r.1 r.2 with block := cubelet }⟩)

/-- One path-level insertion: `add_node` at `path` followed by writing
`payload` into the returned node's `block` — the exact mutation `place`
performs after encoding, for an arbitrary hierarchy path. -/
def insertPath (data : List Node) (path : List Nat) (payload : Nat) :
    Option (List Node × Nat) :=
  (addNodeGo data 0 path).map (fun r =>
    (r.1.set r.2 { nodeAt r.1 r.2 with block := payload }, r.2))

/-- Fold a list of (path, payload) insertions over a fresh `Octree::new()`
store (`none` = some insertion panicked). -/
def insertAll (ps : List (List Nat × Nat)) : Option (List Node) :=
  ps.foldlM (fun data pr => (insertPath data pr.1 pr.2).map Prod.fst) octreeNew.data

/-- The octant masks of a path of octant indices: a hierarchy path is a
sequence of single-bit `u8` masks `2 ^ j` with `j < 8`. -/
def masksOf (js : List (Fin 8)) : List Nat := js.map (fun j => 2 ^ (j : Nat))

/-- `insertAll` over paths given by octant indices. -/
def insertAllM (ps : List (List (Fin 8) × Nat)) : Option (List Node) :=
  insertAll (ps.map (fun pr => (masksOf pr.1, pr.2)))

/-! ## Abstraction layer: descent as a partial index map -/

/-- The sibling rank of octant `j` in `valid`:
`popcount (valid & (2 ^ j - 1))`, the number of set bits below `j`. -/
def rank (v j : Nat) : Nat := popcount (v &&& (2 ^ j - 1))

/-- One descent step at octant `j`, exactly the test both `get_node` and
`add_node` perform on the current node. -/
def stepIdx (data : List Node) (index : Nat) (j : Fin 8) : Option Nat :=
  if (nodeAt data index).valid &&& 2 ^ (j : Nat) = 2 ^ (j : Nat) ∧
      (nodeAt data index).child ≠ U32MAX then
    some ((nodeAt data index).child + rank (nodeAt data index).valid (j : Nat))
  else none

/-- Iterated descent: the array index reached by a path of octants. -/
def resolve (data : List Node) : Nat → List (Fin 8) → Option Nat
  | index, [] => some index
  | index, j :: js =>
    match stepIdx data index j with
    | none => none
    | some index2 => resolve data index2 js

/-- Per-entry invariant of the node array (relative to array length). -/
def EntryInv (len : Nat) (n : Node) : Prop :=
  n.valid < 256 ∧ (n.valid = 0 → n.child = U32MAX) ∧
    (n.valid ≠ 0 → n.child + popcount n.valid ≤ len)

/-- All entries of the array satisfy the per-entry invariant. -/
def EntriesInv (data : List Node) : Prop :=
  ∀ i, i < data.length → EntryInv data.length (nodeAt data i)

/-- Global store invariant: nonempty, no more than `u32::MAX` nodes (the
`as u32` child cast is then value-preserving and cannot collide with the
sentinel), and all entries well formed. -/
def StoreInv (data : List Node) : Prop :=
  0 < data.length ∧ data.length ≤ U32MAX ∧ EntriesInv data

/-- Distinct paths from the root reach distinct array indices. -/
def PathSep (data : List Node) : Prop :=
  ∀ js1 js2 : List (Fin 8), ∀ i, resolve data 0 js1 = some i →
    resolve data 0 js2 = some i → js1 = js2

/-- A path was created by the insertions `ps` iff it is a prefix of some
inserted path. -/
def created (ps : List (List (Fin 8) × Nat)) (js : List (Fin 8)) : Prop :=
  ∃ pr ∈ ps, ∃ t, pr.1 = js ++ t

/-- The last payload written at exactly `js`, if any. -/
def lastWrite (ps : List (List (Fin 8) × Nat)) (js : List (Fin 8)) : Option Nat :=
  ps.foldl (fun acc pr => if pr.1 = js then some pr.2 else acc) none

/-! ## Bit arithmetic for `popcount` and `rank` -/

theorem mem_bitsOf (v i : Nat) : i ∈ bitsOf v ↔ i < 32 ∧ v.testBit i := by
  unfold bitsOf
  simp [Finset.mem_filter, Finset.mem_range]

theorem bitsOf_zero : bitsOf 0 = ∅ := by
  unfold bitsOf
  simp

theorem popcount_zero : popcount 0 = 0 := by
  unfold popcount
  rw [bitsOf_zero]
  rfl

theorem bitsOf_two_pow (j : Nat) (hj : j < 32) : bitsOf (2 ^ j) = {j} := by
  ext i
  rw [mem_bitsOf, Finset.mem_singleton]
  constructor
  · rintro ⟨_, hb⟩
    rw [Nat.testBit_two_pow] at hb
    exact (of_decide_eq_true hb).symm
  · rintro rfl
    exact ⟨hj, Nat.testBit_two_pow_self⟩

theorem popcount_two_pow (j : Nat) (hj : j < 32) : popcount (2 ^ j) = 1 := by
  unfold popcount
  rw [bitsOf_two_pow j hj]
  rfl

theorem bitsOf_lor (u w : Nat) : bitsOf (u ||| w) = bitsOf u ∪ bitsOf w := by
  ext i
  simp only [mem_bitsOf, Finset.mem_union, Nat.testBit_or, Bool.or_eq_true]
  tauto

theorem bitsOf_land (u w : Nat) : bitsOf (u &&& w) = bitsOf u ∩ bitsOf w := by
  ext i
  simp only [mem_bitsOf, Finset.mem_inter, Nat.testBit_and, Bool.and_eq_true]
  tauto

theorem testBit_of_lt_256 (v i : Nat) (hv : v < 256) (hi : 8 ≤ i) :
    v.testBit i = false := by
  apply Nat.testBit_lt_two_pow
  calc v < 256 := hv
    _ = 2 ^ 8 := rfl
    _ ≤ 2 ^ i := Nat.pow_le_pow_right (by norm_num) hi

theorem eq_zero_of_bitsOf_empty (v : Nat) (hv : v < 2 ^ 32) (h : bitsOf v = ∅) :
    v = 0 := by
  apply Nat.eq_of_testBit_eq
  intro i
  rw [Nat.zero_testBit]
  by_cases hi : i < 32
  · by_contra hb
    have : i ∈ bitsOf v := (mem_bitsOf v i).mpr ⟨hi, by
      cases hbv : v.testBit i
      · exact absurd hbv hb
      · rfl⟩
    rw [h] at this
    exact absurd this (Finset.not_mem_empty i)
  · exact Nat.testBit_lt_two_pow (lt_of_lt_of_le hv (Nat.pow_le_pow_right (by norm_num) (by omega)))

theorem popcount_eq_zero (v : Nat) (hv : v < 2 ^ 32) : popcount v = 0 ↔ v = 0 := by
  unfold popcount
  rw [Finset.card_eq_zero]
  constructor
  · exact eq_zero_of_bitsOf_empty v hv
  · rintro rfl
    exact bitsOf_zero

theorem bitsOf_land_pred (v j : Nat) (hj : j < 32) :
    bitsOf (v &&& (2 ^ j - 1)) = (bitsOf v).filter (fun i => i < j) := by
  ext i
  simp only [mem_bitsOf, Finset.mem_filter, Nat.testBit_and, Bool.and_eq_true,
    Nat.testBit_two_pow_sub_one, decide_eq_true_eq]
  tauto

theorem rank_eq_card (v j : Nat) (hj : j < 32) :
    rank v j = ((bitsOf v).filter (fun i => i < j)).card := by
  unfold rank popcount
  rw [bitsOf_land_pred v j hj]

theorem rank_le_popcount (v j : Nat) (hj : j < 32) : rank v j ≤ popcount v := by
  rw [rank_eq_card v j hj]
  exact Finset.card_le_card (Finset.filter_subset _ _)

theorem rank_lt_popcount (v j : Nat) (hj : j < 32) (hb : v.testBit j) :
    rank v j < popcount v := by
  rw [rank_eq_card v j hj]
  apply Finset.card_lt_card
  constructor
  · exact Finset.filter_subset _ _
  · intro hsub
    have hjmem : j ∈ bitsOf v := (mem_bitsOf v j).mpr ⟨hj, hb⟩
    have := hsub hjmem
    rw [Finset.mem_filter] at this
    omega

theorem rank_strict_mono (v j1 j2 : Nat) (h12 : j1 < j2) (hj2 : j2 < 32)
    (hb1 : v.testBit j1) : rank v j1 < rank v j2 := by
  rw [rank_eq_card v j1 (by omega), rank_eq_card v j2 hj2]
  apply Finset.card_lt_card
  constructor
  · intro i hi
    rw [Finset.mem_filter] at hi ⊢
    exact ⟨hi.1, by omega⟩
  · intro hsub
    have hjmem : j1 ∈ (bitsOf v).filter (fun i => i < j2) := by
      rw [Finset.mem_filter]
      exact ⟨(mem_bitsOf v j1).mpr ⟨by omega, hb1⟩, h12⟩
    have := hsub hjmem
    rw [Finset.mem_filter] at this
    omega

theorem rank_lor_self (v j : Nat) (hj : j < 32) :
    rank (v ||| 2 ^ j) j = rank v j := by
  rw [rank_eq_card _ j hj, rank_eq_card v j hj, bitsOf_lor, bitsOf_two_pow j hj]
  congr 1
  rw [Finset.filter_union]
  have : ({j} : Finset Nat).filter (fun i => i < j) = ∅ := by
    rw [Finset.filter_singleton]
    simp
  rw [this, Finset.union_empty]

theorem popcount_lor_two_pow (v j : Nat) (hj : j < 32) (hb : v.testBit j = false) :
    popcount (v ||| 2 ^ j) = popcount v + 1 := by
  unfold popcount
  rw [bitsOf_lor, bitsOf_two_pow j hj]
  rw [Finset.union_comm, ← Finset.insert_eq]
  rw [Finset.card_insert_of_not_mem]
  intro hmem
  rw [mem_bitsOf] at hmem
  rw [hb] at hmem
  exact absurd hmem.2 (by simp)

theorem and_two_pow_eq_iff (v j : Nat) : v &&& 2 ^ j = 2 ^ j ↔ v.testBit j = true := by
  constructor
  · intro h
    have := congrArg (fun w => w.testBit j) h
    simp only [Nat.testBit_and, Nat.testBit_two_pow_self, Bool.and_true] at this
    exact this
  · intro h
    apply Nat.eq_of_testBit_eq
    intro i
    simp only [Nat.testBit_and, Nat.testBit_two_pow]
    by_cases hij : j = i
    · subst hij
      simp [h]
    · simp [hij]

theorem and_two_pow_ne (v j : Nat) (hb : v.testBit j = false) :
    ¬ (v &&& 2 ^ j = 2 ^ j) := by
  rw [and_two_pow_eq_iff]
  simp [hb]

theorem lor_two_pow_testBit (v j i : Nat) :
    (v ||| 2 ^ j).testBit i = (v.testBit i || decide (j = i)) := by
  rw [Nat.testBit_or, Nat.testBit_two_pow]

theorem valid_lt_256_lor (v m : Nat) (hv : v < 256) (hm : m < 256) : v ||| m < 256 := by
  have h256 : (256 : Nat) = 2 ^ 8 := by norm_num
  rw [h256] at hv hm ⊢
  exact Nat.or_lt_two_pow hv hm

theorem rank_lor_other (v j j' : Nat) (hj : j < 32) (hj' : j' < 32)
    (hb : v.testBit j = false) :
    rank (v ||| 2 ^ j) j' = rank v j' + (if j < j' then 1 else 0) := by
  rw [rank_eq_card _ j' hj', rank_eq_card v j' hj', bitsOf_lor, bitsOf_two_pow j hj,
    Finset.filter_union, Finset.filter_singleton]
  have hnotmem : j ∉ (bitsOf v).filter (fun i => i < j') := by
    intro hmem
    rw [Finset.mem_filter, mem_bitsOf] at hmem
    rw [hb] at hmem
    simp at hmem
  by_cases hlt : j < j'
  · rw [if_pos hlt, if_pos hlt, Finset.union_comm, ← Finset.insert_eq,
      Finset.card_insert_of_not_mem hnotmem]
  · rw [if_neg hlt, if_neg hlt, Finset.union_empty]
    omega

/-! ## Array access lemmas -/

theorem nodeAt_nil (i : Nat) : nodeAt [] i = defaultNode := by
  cases i <;> rfl

theorem nodeAt_append_left (d l : List Node) (k : Nat) (h : k < d.length) :
    nodeAt (d ++ l) k = nodeAt d k := by
  induction d generalizing k with
  | nil => simp at h
  | cons a d ih =>
    cases k with
    | zero => rfl
    | succ k =>
      simp only [List.length_cons] at h
      exact ih k (by omega)

theorem nodeAt_append_right (d l : List Node) (k : Nat) :
    nodeAt (d ++ l) (d.length + k) = nodeAt l k := by
  induction d with
  | nil => simp only [List.nil_append, List.length_nil, Nat.zero_add]
  | cons a d ih =>
    simp only [List.cons_append, List.length_cons]
    have : d.length + 1 + k = (d.length + k) + 1 := by omega
    rw [this]
    exact ih

theorem nodeAt_ge_length (d : List Node) (k : Nat) (h : d.length ≤ k) :
    nodeAt d k = defaultNode := by
  induction d generalizing k with
  | nil => exact nodeAt_nil k
  | cons a d ih =>
    cases k with
    | zero => simp at h
    | succ k =>
      simp only [List.length_cons] at h
      exact ih k (by omega)

theorem nodeAt_set_self (d : List Node) (i : Nat) (n : Node) (h : i < d.length) :
    nodeAt (d.set i n) i = n := by
  induction d generalizing i with
  | nil => simp at h
  | cons a d ih =>
    cases i with
    | zero => rfl
    | succ i =>
      simp only [List.length_cons] at h
      exact ih i (by omega)

theorem nodeAt_set_ne (d : List Node) (i k : Nat) (n : Node) (h : i ≠ k) :
    nodeAt (d.set i n) k = nodeAt d k := by
  induction d generalizing i k with
  | nil => rfl
  | cons a d ih =>
    cases i with
    | zero =>
      cases k with
      | zero => exact absurd rfl h
      | succ k => rfl
    | succ i =>
      cases k with
      | zero => rfl
      | succ k => exact ih i k (by omega)

theorem length_insertAt (d : List Node) (i : Nat) (a : Node) (h : i ≤ d.length) :
    (insertAt d i a).length = d.length + 1 := by
  induction d generalizing i with
  | nil =>
    cases i with
    | zero => rfl
    | succ i => simp at h
  | cons b d ih =>
    cases i with
    | zero => rfl
    | succ i =>
      simp only [List.length_cons] at h
      simp only [insertAt, List.length_cons]
      rw [ih i (by omega)]

theorem insertAt_length_self (d : List Node) (a : Node) :
    insertAt d d.length a = d ++ [a] := by
  induction d with
  | nil => rfl
  | cons b d ih =>
    simp only [List.length_cons, insertAt, List.cons_append]
    rw [ih]

theorem nodeAt_insertAt_lt (d : List Node) (i : Nat) (a : Node) (k : Nat)
    (hk : k < i) (hi : i ≤ d.length) :
    nodeAt (insertAt d i a) k = nodeAt d k := by
  induction d generalizing i k with
  | nil => simp at hi; omega
  | cons b d ih =>
    cases i with
    | zero => omega
    | succ i =>
      cases k with
      | zero => rfl
      | succ k =>
        simp only [List.length_cons] at hi
        exact ih i k (by omega) (by omega)

theorem nodeAt_insertAt_self (d : List Node) (i : Nat) (a : Node) (hi : i ≤ d.length) :
    nodeAt (insertAt d i a) i = a := by
  induction d generalizing i with
  | nil =>
    cases i with
    | zero => rfl
    | succ i => simp at hi
  | cons b d ih =>
    cases i with
    | zero => rfl
    | succ i =>
      simp only [List.length_cons] at hi
      exact ih i (by omega)

theorem nodeAt_insertAt_ge (d : List Node) (i : Nat) (a : Node) (k : Nat)
    (hk : i ≤ k) (hi : i ≤ d.length) :
    nodeAt (insertAt d i a) (k + 1) = nodeAt d k := by
  induction d generalizing i k with
  | nil =>
    cases i with
    | zero => exact (nodeAt_nil k).symm ▸ rfl
    | succ i => simp at hi
  | cons b d ih =>
    cases i with
    | zero => rfl
    | succ i =>
      cases k with
      | zero => omega
      | succ k =>
        simp only [List.length_cons] at hi
        exact ih i k (by omega) (by omega)

/-! ## Descent lemmas -/

theorem stepIdx_some_of (data : List Node) (index : Nat) (j : Fin 8)
    (h1 : (nodeAt data index).valid.testBit (j : Nat))
    (h2 : (nodeAt data index).child ≠ U32MAX) :
    stepIdx data index j
      = some ((nodeAt data index).child + rank (nodeAt data index).valid (j : Nat)) := by
  unfold stepIdx
  rw [if_pos ⟨(and_two_pow_eq_iff _ _).mpr h1, h2⟩]

theorem stepIdx_none_of (data : List Node) (index : Nat) (j : Fin 8)
    (h1 : (nodeAt data index).valid.testBit (j : Nat) = false) :
    stepIdx data index j = none := by
  unfold stepIdx
  rw [if_neg]
  intro hc
  exact absurd ((and_two_pow_eq_iff _ _).mp hc.1) (by simp [h1])

theorem stepIdx_inv (data : List Node) (index : Nat) (j : Fin 8) (c : Nat)
    (h : stepIdx data index j = some c) :
    (nodeAt data index).valid.testBit (j : Nat) = true ∧
      (nodeAt data index).child ≠ U32MAX ∧
      c = (nodeAt data index).child + rank (nodeAt data index).valid (j : Nat) := by
  unfold stepIdx at h
  split at h
  · rename_i hcond
    injection h with h
    exact ⟨(and_two_pow_eq_iff _ _).mp hcond.1, hcond.2, h.symm⟩
  · exact absurd h (by simp)

theorem resolve_append (data : List Node) (a b : List (Fin 8)) : ∀ start,
    resolve data start (a ++ b)
      = (resolve data start a).bind (fun r => resolve data r b) := by
  induction a with
  | nil => intro start; rfl
  | cons j a ih =>
    intro start
    simp only [List.cons_append, resolve]
    cases stepIdx data start j with
    | none => rfl
    | some c => exact ih c

/-- Under the per-entry invariant, every resolved index is in bounds. -/
theorem resolve_lt (data : List Node) (hinv : EntriesInv data) (ks : List (Fin 8)) :
    ∀ start r, start < data.length → resolve data start ks = some r →
      r < data.length := by
  induction ks with
  | nil =>
    intro start r hs h
    injection h with h
    omega
  | cons j ks ih =>
    intro start r hs h
    simp only [resolve] at h
    cases hstep : stepIdx data start j with
    | none => rw [hstep] at h; exact absurd h (by simp)
    | some c =>
      rw [hstep] at h
      obtain ⟨hb, hcmax, hc⟩ := stepIdx_inv data start j c hstep
      have hentry := hinv start hs
      have hvne : (nodeAt data start).valid ≠ 0 := by
        intro h0
        rw [h0] at hb
        simp [Nat.zero_testBit] at hb
      have hbound := hentry.2.2 hvne
      have hv256 : (nodeAt data start).valid < 256 := hentry.1
      have hcl : c < data.length := by
        have hrk : rank (nodeAt data start).valid (j : Nat) <
            popcount (nodeAt data start).valid :=
          rank_lt_popcount _ _ (by omega) hb
        omega
      exact ih c r hcl h

/-- If two arrays agree on every index the walk of `ks` from `start` visits
(in the first array), the walks coincide. -/
theorem resolve_congr (data data2 : List Node) (ks : List (Fin 8)) : ∀ start,
    (∀ t r, t < ks.length → resolve data start (ks.take t) = some r →
      nodeAt data2 r = nodeAt data r) →
    resolve data2 start ks = resolve data start ks := by
  induction ks with
  | nil => intro start _; rfl
  | cons j ks ih =>
    intro start hag
    have h0 : nodeAt data2 start = nodeAt data start :=
      hag 0 start (by simp) rfl
    simp only [resolve]
    have hstep : stepIdx data2 start j = stepIdx data start j := by
      unfold stepIdx
      rw [h0]
    rw [hstep]
    cases hs : stepIdx data start j with
    | none => rfl
    | some c =>
      apply ih c
      intro t r ht hr
      apply hag (t + 1) r (by simpa using ht)
      rw [List.take_succ_cons]
      simp only [resolve, hs]
      exact hr

/-- Changing only `block` fields nowhere affects the descent map. -/
theorem resolve_eq_of_same_shape (data data2 : List Node)
    (h : ∀ k, (nodeAt data2 k).valid = (nodeAt data k).valid ∧
      (nodeAt data2 k).child = (nodeAt data k).child) (ks : List (Fin 8)) :
    ∀ start, resolve data2 start ks = resolve data start ks := by
  induction ks with
  | nil => intro start; rfl
  | cons j ks ih =>
    intro start
    simp only [resolve]
    have hstep : stepIdx data2 start j = stepIdx data start j := by
      unfold stepIdx
      rw [(h start).1, (h start).2]
    rw [hstep]
    cases hs : stepIdx data start j with
    | none => rfl
    | some c => exact ih c

theorem masksOf_cons (j : Fin 8) (js : List (Fin 8)) :
    masksOf (j :: js) = 2 ^ (j : Nat) :: masksOf js := rfl

/-- `get_node`'s walk is exactly `resolve` (over octant-index paths). -/
theorem getNodeGo_eq_resolve (data : List Node) (js : List (Fin 8)) : ∀ index,
    getNodeGo data index (masksOf js)
      = (resolve data index js).map (fun k => (nodeAt data k, k)) := by
  induction js with
  | nil => intro index; rfl
  | cons j js ih =>
    intro index
    rw [masksOf_cons]
    simp only [getNodeGo, resolve]
    rw [if_neg (by rw [popcount_two_pow (j : Nat) (by omega)]; omega)]
    cases hs : stepIdx data index j with
    | none =>
      unfold stepIdx at hs
      split at hs
      · exact absurd hs (by simp)
      · rename_i hcond
        rw [if_neg hcond]
        rfl
    | some c =>
      unfold stepIdx at hs
      split at hs
      · rename_i hcond
        injection hs with hs
        rw [if_pos hcond]
        have hrk : popcount ((nodeAt data index).valid &&& (2 ^ (j : Nat) - 1))
            = rank (nodeAt data index).valid (j : Nat) := rfl
        rw [hrk]
        rw [ih (((nodeAt data index).child + rank (nodeAt data index).valid (j : Nat)))]
        rw [hs]
      · exact absurd hs (by simp)

/-- If the whole path already resolves, `add_node` only walks: the array is
unchanged and the resolved index is returned. -/
theorem addNodeGo_of_resolve (data : List Node) (js : List (Fin 8)) : ∀ index r,
    resolve data index js = some r →
    addNodeGo data index (masksOf js) = some (data, r) := by
  induction js with
  | nil =>
    intro index r h
    injection h with h
    rw [h]
    rfl
  | cons j js ih =>
    intro index r h
    simp only [resolve] at h
    cases hs : stepIdx data index j with
    | none => rw [hs] at h; exact absurd h (by simp)
    | some c =>
      rw [hs] at h
      obtain ⟨hb, hcmax, hc⟩ := stepIdx_inv data index j c hs
      rw [masksOf_cons]
      simp only [addNodeGo]
      rw [if_neg (by rw [popcount_two_pow (j : Nat) (by omega)]; omega)]
      rw [if_pos ⟨(and_two_pow_eq_iff _ _).mpr hb, hcmax⟩]
      have hrk : popcount ((nodeAt data index).valid &&& (2 ^ (j : Nat) - 1))
          = rank (nodeAt data index).valid (j : Nat) := rfl
      rw [hrk]
      rw [← hc]
      exact ih c r h

/-! ## The fresh-chain phase of `add_node` -/

theorem two_pow_and_pred (j : Nat) : 2 ^ j &&& (2 ^ j - 1) = 0 := by
  apply Nat.eq_of_testBit_eq
  intro i
  simp only [Nat.testBit_and, Nat.testBit_two_pow, Nat.testBit_two_pow_sub_one,
    Nat.zero_testBit]
  by_cases hij : j = i
  · subst hij
    simp
  · simp [hij]

theorem rank_two_pow_self (j : Nat) : rank (2 ^ j) j = 0 := by
  unfold rank
  rw [two_pow_and_pred, popcount_zero]

theorem popcount_le_one_ne (m : Nat) (h : popcount m = 1) : ¬ popcount m ≠ 1 := by
  omega

/-- The array index of the `t`-th node of a fresh chain hanging from `f` in
an array that had length `L` when the chain started: depth 0 is `f`, depth
`t ≥ 1` is the node appended while processing octant `t`, at `L + t - 1`. -/
def chainIdx (L f t : Nat) : Nat := if t = 0 then f else L + t - 1

theorem chainIdx_succ (L f t : Nat) : chainIdx L f (t + 1) = chainIdx (L + 1) L t := by
  unfold chainIdx
  cases t with
  | zero => simp
  | succ t =>
    simp only [Nat.succ_ne_zero, if_false]
    omega

/-- Unfolding one `add_node` level at a fresh default node: the node gains
the single bit, its child pointer is set to the array end, no copies are
made (`q = 0`), and a fresh default child is appended. -/
theorem addNodeGo_fresh_step (data : List Node) (f : Nat) (j1 : Fin 8)
    (rest : List Nat) (hf : f < data.length) (hnode : nodeAt data f = defaultNode)
    (hL : data.length < 2 ^ 32) :
    addNodeGo data f (2 ^ (j1 : Nat) :: rest)
      = addNodeGo
          (data.set f { defaultNode with valid := 2 ^ (j1 : Nat), child := data.length }
            ++ [defaultNode])
          data.length rest := by
  have h1 : ¬ (popcount (2 ^ (j1 : Nat)) ≠ 1) := by
    rw [popcount_two_pow _ (by omega)]
    omega
  have h2 : ¬ (defaultNode.valid &&& 2 ^ (j1 : Nat) = 2 ^ (j1 : Nat) ∧
      defaultNode.child ≠ U32MAX) := by
    rintro ⟨-, hbad⟩
    exact hbad rfl
  have h3 : defaultNode.valid ||| 2 ^ (j1 : Nat) = 2 ^ (j1 : Nat) := by
    show 0 ||| 2 ^ (j1 : Nat) = 2 ^ (j1 : Nat)
    simp
  have h4 : popcount (2 ^ (j1 : Nat) &&& (2 ^ (j1 : Nat) - 1)) = 0 := by
    rw [two_pow_and_pred, popcount_zero]
  have h5 : popcount (2 ^ (j1 : Nat)) - 1 = 0 := by
    rw [popcount_two_pow _ (by omega)]
  have h6 : data.length % 2 ^ 32 = data.length := Nat.mod_eq_of_lt hL
  simp only [addNodeGo, hnode, h3, h4, h5, h6]
  rw [if_neg h1, if_neg h2]
  simp only [copyLoop]
  have hflen : f < (data.set f
      { defaultNode with valid := 2 ^ (j1 : Nat), child := data.length }).length := by
    rw [List.length_set]
    exact hf
  rw [nodeAt_set_self _ _ _ (by simpa using hf)]
  have hlen1 : (data.set f
      { defaultNode with valid := 2 ^ (j1 : Nat), child := data.length }).length
      = data.length := List.length_set data f _
  rw [Nat.add_zero]
  have hins := insertAt_length_self
    (data.set f { defaultNode with valid := 2 ^ (j1 : Nat), child := data.length })
    defaultNode
  rw [hlen1] at hins
  rw [hins]

/-- Inserting a path below a fresh default node appends a fresh chain: one
node per level; every other entry is untouched; the chain nodes carry the
default payload; the descent from the chain head reaches exactly the chain;
the touched entries satisfy the per-entry invariant. -/
theorem addNodeGo_fresh (rest : List (Fin 8)) : ∀ data f,
    f < data.length →
    nodeAt data f = defaultNode →
    data.length + rest.length ≤ U32MAX →
    ∃ data2, addNodeGo data f (masksOf rest)
        = some (data2, chainIdx data.length f rest.length) ∧
      data2.length = data.length + rest.length ∧
      (∀ k, k < data.length → k ≠ f → nodeAt data2 k = nodeAt data k) ∧
      nodeAt data2 (chainIdx data.length f rest.length) = defaultNode ∧
      (∀ t, t ≤ rest.length → (nodeAt data2 (chainIdx data.length f t)).block = 42069) ∧
      (∀ ks r, resolve data2 f ks = some r ↔
        ∃ t, t ≤ rest.length ∧ ks = rest.take t ∧ r = chainIdx data.length f t) ∧
      (∀ k, k < data2.length → data.length ≤ k ∨ k = f →
        EntryInv data2.length (nodeAt data2 k)) := by
  induction rest with
  | nil =>
    intro data f hf hnode hbound
    simp only [List.length_nil, Nat.add_zero]
    have hchain : chainIdx data.length f 0 = f := rfl
    refine ⟨data, by rw [hchain]; rfl, rfl, fun k _ _ => rfl, by rw [hchain]; exact hnode,
      ?_, ?_, ?_⟩
    · intro t ht
      have ht0 : t = 0 := by omega
      subst ht0
      rw [hchain, hnode]
      rfl
    · intro ks r
      constructor
      · intro h
        refine ⟨0, by omega, ?_, ?_⟩
        · cases ks with
          | nil => rfl
          | cons j ks =>
            simp only [resolve] at h
            rw [stepIdx_none_of data f j (by rw [hnode]; exact Nat.zero_testBit _)] at h
            exact absurd h (by simp)
        · cases ks with
          | nil =>
            injection h with h
            rw [hchain, h]
          | cons j ks =>
            simp only [resolve] at h
            rw [stepIdx_none_of data f j (by rw [hnode]; exact Nat.zero_testBit _)] at h
            exact absurd h (by simp)
      · rintro ⟨t, ht, hks, hr⟩
        have ht0 : t = 0 := by omega
        subst ht0
        subst hks
        rw [hr, hchain]
        rfl
    · intro k hk hor
      rcases hor with hge | hfk
      · omega
      · subst hfk
        rw [hnode]
        exact ⟨by norm_num [defaultNode], fun _ => rfl, fun hne => absurd rfl hne⟩
  | cons j1 rest ih =>
    intro data f hf hnode hbound
    simp only [List.length_cons] at hbound ⊢
    have hL32 : data.length < 2 ^ 32 := by
      unfold U32MAX at hbound
      omega
    rw [masksOf_cons, addNodeGo_fresh_step data f j1 (masksOf rest) hf hnode hL32]
    set nn : Node := { defaultNode with valid := 2 ^ (j1 : Nat), child := data.length }
      with hnn
    set d3 : List Node := data.set f nn ++ [defaultNode] with hd3def
    have hnnc : nn.child = data.length := rfl
    have hnnv : nn.valid = 2 ^ (j1 : Nat) := rfl
    have hnnb : nn.block = 42069 := rfl
    have hlenset : (data.set f nn).length = data.length := List.length_set data f nn
    have hlen3 : d3.length = data.length + 1 := by
      rw [hd3def, List.length_append, hlenset]
      rfl
    have hd3L : nodeAt d3 data.length = defaultNode := by
      rw [hd3def]
      have h0 := nodeAt_append_right (data.set f nn) [defaultNode] 0
      rw [hlenset, Nat.add_zero] at h0
      rw [h0]
      rfl
    obtain ⟨data2, heq, hlen, hframe, hleaf, hblocks, hresolve, hentry⟩ :=
      ih d3 data.length (by omega) hd3L (by omega)
    have hd3f : nodeAt d3 f = nn := by
      rw [hd3def, nodeAt_append_left _ _ f (by rw [hlenset]; exact hf)]
      exact nodeAt_set_self data f nn hf
    have hd3k : ∀ k, k < data.length → k ≠ f → nodeAt d3 k = nodeAt data k := by
      intro k hk hkf
      rw [hd3def, nodeAt_append_left _ _ k (by rw [hlenset]; exact hk)]
      exact nodeAt_set_ne data f k nn (fun h => hkf h.symm)
    have hd2f : nodeAt data2 f = nn := by
      rw [hframe f (by omega) (by omega), hd3f]
    have hchainS : ∀ t, chainIdx data.length f (t + 1)
        = chainIdx d3.length data.length t := by
      intro t
      rw [hlen3]
      exact chainIdx_succ data.length f t
    refine ⟨data2, ?_, ?_, ?_, ?_, ?_, ?_, ?_⟩
    · rw [heq, hchainS rest.length]
    · rw [hlen, hlen3]
      omega
    · intro k hk hkf
      rw [hframe k (by omega) (by omega), hd3k k hk hkf]
    · rw [hchainS rest.length]
      exact hleaf
    · intro t ht
      cases t with
      | zero =>
        show (nodeAt data2 (chainIdx data.length f 0)).block = 42069
        have hc0 : chainIdx data.length f 0 = f := rfl
        rw [hc0, hd2f, hnnb]
      | succ t =>
        rw [hchainS t]
        exact hblocks t (by omega)
    · intro ks r
      have hstep : stepIdx data2 f j1 = some data.length := by
        have h1 : (nodeAt data2 f).valid.testBit (j1 : Nat) := by
          rw [hd2f, hnnv]
          exact Nat.testBit_two_pow_self
        have h2 : (nodeAt data2 f).child ≠ U32MAX := by
          rw [hd2f, hnnc]
          unfold U32MAX
          unfold U32MAX at hbound
          omega
        have h3 := stepIdx_some_of data2 f j1 h1 h2
        rw [hd2f, hnnc, hnnv, rank_two_pow_self, Nat.add_zero] at h3
        exact h3
      cases ks with
      | nil =>
        simp only [resolve]
        constructor
        · intro h
          injection h with h
          exact ⟨0, by omega, rfl, by rw [← h]; rfl⟩
        · rintro ⟨t, ht, hks, hr⟩
          have ht0 : t = 0 := by
            by_contra hne
            have hlent : (List.take t (j1 :: rest)).length = t := by
              rw [List.length_take]
              simp only [List.length_cons]
              omega
            rw [← hks] at hlent
            simp only [List.length_nil] at hlent
            omega
          subst ht0
          rw [hr]
          rfl
      | cons j' ks =>
        by_cases hjj : j' = j1
        · subst hjj
          simp only [resolve, hstep]
          rw [hresolve ks r]
          constructor
          · rintro ⟨t, ht, hks, hr⟩
            exact ⟨t + 1, by omega, by rw [List.take_succ_cons, ← hks],
              by rw [hchainS t]; exact hr⟩
          · rintro ⟨t, ht, hks, hr⟩
            cases t with
            | zero => exact absurd hks (by simp)
            | succ t =>
              rw [List.take_succ_cons] at hks
              refine ⟨t, by omega, ?_, ?_⟩
              · injection hks with h1 h2
              · rw [← hchainS t]
                exact hr
        · have hstepn : stepIdx data2 f j' = none := by
            apply stepIdx_none_of
            rw [hd2f, hnnv]
            exact Nat.testBit_two_pow_of_ne (fun h => hjj (Fin.ext h.symm))
          simp only [resolve, hstepn]
          constructor
          · intro h
            exact absurd h (by simp)
          · rintro ⟨t, ht, hks, hr⟩
            cases t with
            | zero => exact absurd hks (by simp)
            | succ t =>
              rw [List.take_succ_cons] at hks
              injection hks with h1 h2
              exact absurd h1 hjj
    · intro k hk hor
      rcases hor with hge | hfk
      · rcases Nat.eq_or_lt_of_le hge with heqk | hltk
        · exact hentry k hk (Or.inr heqk.symm)
        · exact hentry k hk (Or.inl (by omega))
      · subst hfk
        rw [hd2f]
        refine ⟨?_, ?_, ?_⟩
        · rw [hnnv]
          have : 2 ^ (j1 : Nat) ≤ 2 ^ 7 := Nat.pow_le_pow_right (by norm_num) (by omega)
          omega
        · intro h0
          rw [hnnv] at h0
          exact absurd h0 (by positivity)
        · intro _
          rw [hnnc, hnnv, popcount_two_pow _ (by omega)]
          omega

/-! ## The copy-and-shift phase of `add_node` -/

theorem EntryInv_mono (len len2 : Nat) (n : Node) (h : len ≤ len2)
    (hn : EntryInv len n) : EntryInv len2 n :=
  ⟨hn.1, hn.2.1, fun hne => by have := hn.2.2 hne; omega⟩

theorem nodeAt_eq_getElem (d : List Node) : ∀ i, (h : i < d.length) →
    nodeAt d i = d[i] := by
  induction d with
  | nil => intro i h; simp at h
  | cons a d ih =>
    intro i h
    cases i with
    | zero => rfl
    | succ i => exact ih i (by simpa using h)

theorem nodeAt_map_range (g : Nat → Node) (k r : Nat) (h : r < k) :
    nodeAt ((List.range k).map g) r = g r := by
  rw [nodeAt_eq_getElem _ r (by simpa using h)]
  simp

/-- The copy loop appends, in order, the `k` entries at
`oldChild + i, ..., oldChild + i + k - 1`, provided the re-read child
pointer at `index` stays equal to the running length and all reads are
below `L` (hence in the untouched prefix). -/
theorem copyLoop_eq (index oldChild L : Nat) : ∀ (k i : Nat) (d : List Node),
    d.length = L + i → index < L → (nodeAt d index).child = L →
    (∀ r, r < k → oldChild + i + r < L) →
    copyLoop index oldChild i k d
      = d ++ (List.range k).map (fun r => nodeAt d (oldChild + i + r)) := by
  intro k
  induction k with
  | zero =>
    intro i d _ _ _ _
    simp [copyLoop]
  | succ k ih =>
    intro i d hdlen hidx hchild hreads
    simp only [copyLoop]
    rw [hchild]
    have hpos : L + i = d.length := hdlen.symm
    rw [hpos, insertAt_length_self]
    have hlen2 : (d ++ [nodeAt d (oldChild + i)]).length = L + (i + 1) := by
      rw [List.length_append, hdlen]
      simp
      omega
    have hidx2 : nodeAt (d ++ [nodeAt d (oldChild + i)]) index = nodeAt d index :=
      nodeAt_append_left _ _ index (by omega)
    rw [ih (i + 1) (d ++ [nodeAt d (oldChild + i)]) hlen2 hidx
      (by rw [hidx2]; exact hchild)
      (fun r hr => by have := hreads (r + 1) (by omega); omega)]
    rw [List.append_assoc]
    congr 1
    have hmap : ∀ r, r < k →
        nodeAt (d ++ [nodeAt d (oldChild + i)]) (oldChild + (i + 1) + r)
          = nodeAt d (oldChild + (i + 1) + r) := by
      intro r hr
      apply nodeAt_append_left
      have := hreads (r + 1) (by omega)
      omega
    rw [List.range_succ_eq_map]
    simp only [List.map_cons, List.map_map, List.singleton_append]
    congr 1
    apply List.map_congr_left
    intro r hr
    rw [List.mem_range] at hr
    simp only [Function.comp_apply]
    rw [hmap r hr]
    congr 1
    omega

/-- Unfolding one `add_node` level at a node that lacks octant `j`: the
node gains the bit, its child pointer moves to the end of the array, its
`popcount v` old children are copied there in order, and a fresh default
child is inserted at sibling rank `p = rank v j` of the new run. -/
theorem addNodeGo_miss_step (data : List Node) (iP : Nat) (j : Fin 8)
    (c v b : Nat) (hn : nodeAt data iP = ⟨c, v, b⟩) (hiP : iP < data.length)
    (hmiss : v.testBit (j : Nat) = false)
    (hreads : ∀ r, r < popcount v → c + r < data.length)
    (hnoalias : ∀ r, r < popcount v → c + r ≠ iP)
    (hL32 : data.length < 2 ^ 32) (rest : List Nat) :
    addNodeGo data iP (2 ^ (j : Nat) :: rest)
      = addNodeGo
          (insertAt
            (data.set iP ⟨data.length, v ||| 2 ^ (j : Nat), b⟩
              ++ (List.range (popcount v)).map (fun r => nodeAt data (c + r)))
            (data.length + rank v (j : Nat)) defaultNode)
          (data.length + rank v (j : Nat)) rest := by
  have hj32 : (j : Nat) < 32 := by have := j.isLt; omega
  have hpc1 : ¬(popcount (2 ^ (j : Nat)) ≠ 1) := by
    rw [popcount_two_pow _ hj32]
    omega
  have hcond : ¬((nodeAt data iP).valid &&& 2 ^ (j : Nat) = 2 ^ (j : Nat) ∧
      (nodeAt data iP).child ≠ U32MAX) := by
    rw [hn]
    rintro ⟨h1, -⟩
    exact and_two_pow_ne v (j : Nat) hmiss h1
  simp only [addNodeGo]
  rw [if_neg hpc1, if_neg hcond]
  rw [hn]
  have hpv2 : popcount (v ||| 2 ^ (j : Nat)) = popcount v + 1 :=
    popcount_lor_two_pow v _ hj32 hmiss
  have hmod : data.length % 2 ^ 32 = data.length := Nat.mod_eq_of_lt hL32
  have hq : popcount (v ||| 2 ^ (j : Nat)) - 1 = popcount v := by
    omega
  have hrank2 : popcount ((v ||| 2 ^ (j : Nat)) &&& (2 ^ (j : Nat) - 1))
      = rank v (j : Nat) := rank_lor_self v _ hj32
  simp only [hmod, hq, hrank2]
  have hlenset : (data.set iP (⟨data.length, v ||| 2 ^ (j : Nat), b⟩ : Node)).length
      = data.length := List.length_set data iP _
  have hcopy := copyLoop_eq iP c data.length (popcount v) 0
    (data.set iP (⟨data.length, v ||| 2 ^ (j : Nat), b⟩ : Node))
    (by rw [hlenset]; omega) hiP
    (by rw [nodeAt_set_self data iP _ hiP])
    (fun r hr => by have := hreads r hr; omega)
  have hmapc : (List.range (popcount v)).map
      (fun r => nodeAt (data.set iP (⟨data.length, v ||| 2 ^ (j : Nat), b⟩ : Node))
        (c + 0 + r))
      = (List.range (popcount v)).map (fun r => nodeAt data (c + r)) := by
    apply List.map_congr_left
    intro r hr
    rw [List.mem_range] at hr
    have h1 : c + 0 + r = c + r := by omega
    rw [h1]
    exact nodeAt_set_ne data iP (c + r) _ (fun h => hnoalias r hr h.symm)
  rw [hmapc] at hcopy
  rw [hcopy]
  have hreread : nodeAt (data.set iP (⟨data.length, v ||| 2 ^ (j : Nat), b⟩ : Node)
      ++ (List.range (popcount v)).map (fun r => nodeAt data (c + r))) iP
      = (⟨data.length, v ||| 2 ^ (j : Nat), b⟩ : Node) := by
    rw [nodeAt_append_left _ _ iP (by rw [hlenset]; exact hiP)]
    exact nodeAt_set_self data iP _ hiP
  rw [hreread]

/-- The miss branch of `add_node` at a node lacking octant `j`, followed by
the fresh chain for the remaining path: complete characterization of the
resulting array. -/
theorem addNodeGo_miss (data : List Node) (iP : Nat) (j : Fin 8) (rest : List (Fin 8))
    (c v b : Nat) (hn : nodeAt data iP = ⟨c, v, b⟩)
    (hinv : EntriesInv data) (hiP : iP < data.length)
    (hmiss : v.testBit (j : Nat) = false)
    (hnoalias : ∀ r, r < popcount v → c + r ≠ iP)
    (hbound : data.length + popcount v + 1 + rest.length ≤ U32MAX) :
    ∃ data2,
      addNodeGo data iP (masksOf (j :: rest))
        = some (data2, chainIdx (data.length + popcount v + 1)
            (data.length + rank v (j : Nat)) rest.length) ∧
      data2.length = data.length + popcount v + 1 + rest.length ∧
      (∀ k, k < data.length → k ≠ iP → nodeAt data2 k = nodeAt data k) ∧
      nodeAt data2 iP = ⟨data.length, v ||| 2 ^ (j : Nat), b⟩ ∧
      (∀ r, r ≤ popcount v → r ≠ rank v (j : Nat) →
        nodeAt data2 (data.length + r)
          = nodeAt data (c + (if r < rank v (j : Nat) then r else r - 1))) ∧
      (∀ ks r, resolve data2 (data.length + rank v (j : Nat)) ks = some r ↔
        ∃ t, t ≤ rest.length ∧ ks = rest.take t ∧
          r = chainIdx (data.length + popcount v + 1)
            (data.length + rank v (j : Nat)) t) ∧
      (∀ t, t ≤ rest.length →
        (nodeAt data2 (chainIdx (data.length + popcount v + 1)
          (data.length + rank v (j : Nat)) t)).block = 42069) ∧
      (∀ k, k < data2.length → data.length ≤ k →
        EntryInv data2.length (nodeAt data2 k)) ∧
      nodeAt data2 (chainIdx (data.length + popcount v + 1)
        (data.length + rank v (j : Nat)) rest.length) = defaultNode := by
  have hj32 : (j : Nat) < 32 := by have := j.isLt; omega
  have hv256 : v < 256 := by
    have h := (hinv iP hiP).1
    rw [hn] at h
    exact h
  have h232 : (2 : Nat) ^ 32 = 4294967296 := by norm_num
  have hL32 : data.length < 2 ^ 32 := by
    unfold U32MAX at hbound
    omega
  have hq0 : v ≠ 0 → c + popcount v ≤ data.length := by
    intro hne
    have h := (hinv iP hiP).2.2
    rw [hn] at h
    exact h hne
  have hreads : ∀ r, r < popcount v → c + r < data.length := by
    intro r hr
    have hvne : v ≠ 0 := by
      intro h0
      rw [h0, popcount_zero] at hr
      omega
    have := hq0 hvne
    omega
  have hple : rank v (j : Nat) ≤ popcount v := rank_le_popcount v _ hj32
  rw [masksOf_cons, addNodeGo_miss_step data iP j c v b hn hiP hmiss hreads hnoalias hL32]
  have hlenset : (data.set iP (⟨data.length, v ||| 2 ^ (j : Nat), b⟩ : Node)).length
      = data.length := List.length_set data iP _
  have hlenmid : (data.set iP (⟨data.length, v ||| 2 ^ (j : Nat), b⟩ : Node)
      ++ (List.range (popcount v)).map (fun r => nodeAt data (c + r))).length
      = data.length + popcount v := by
    rw [List.length_append, hlenset, List.length_map, List.length_range]
  have hlen3 : (insertAt
      (data.set iP (⟨data.length, v ||| 2 ^ (j : Nat), b⟩ : Node)
        ++ (List.range (popcount v)).map (fun r => nodeAt data (c + r)))
      (data.length + rank v (j : Nat)) defaultNode).length
      = data.length + popcount v + 1 := by
    rw [length_insertAt _ _ _ (by rw [hlenmid]; omega), hlenmid]
  have hmid : ∀ k, k < data.length → nodeAt
      (data.set iP (⟨data.length, v ||| 2 ^ (j : Nat), b⟩ : Node)
        ++ (List.range (popcount v)).map (fun r => nodeAt data (c + r))) k
      = nodeAt (data.set iP (⟨data.length, v ||| 2 ^ (j : Nat), b⟩ : Node)) k := by
    intro k hk
    exact nodeAt_append_left _ _ k (by rw [hlenset]; exact hk)
  have hd3low : ∀ k, k < data.length → nodeAt (insertAt
      (data.set iP (⟨data.length, v ||| 2 ^ (j : Nat), b⟩ : Node)
        ++ (List.range (popcount v)).map (fun r => nodeAt data (c + r)))
      (data.length + rank v (j : Nat)) defaultNode) k
      = nodeAt (data.set iP (⟨data.length, v ||| 2 ^ (j : Nat), b⟩ : Node)) k := by
    intro k hk
    rw [nodeAt_insertAt_lt _ _ _ k (by omega) (by rw [hlenmid]; omega)]
    exact hmid k hk
  have hd3self : nodeAt (insertAt
      (data.set iP (⟨data.length, v ||| 2 ^ (j : Nat), b⟩ : Node)
        ++ (List.range (popcount v)).map (fun r => nodeAt data (c + r)))
      (data.length + rank v (j : Nat)) defaultNode)
      (data.length + rank v (j : Nat)) = defaultNode :=
    nodeAt_insertAt_self _ _ _ (by rw [hlenmid]; omega)
  have hd3copy : ∀ r, r ≤ popcount v → r ≠ rank v (j : Nat) →
      nodeAt (insertAt
        (data.set iP (⟨data.length, v ||| 2 ^ (j : Nat), b⟩ : Node)
          ++ (List.range (popcount v)).map (fun r => nodeAt data (c + r)))
        (data.length + rank v (j : Nat)) defaultNode)
        (data.length + r)
      = nodeAt data (c + (if r < rank v (j : Nat) then r else r - 1)) := by
    intro r hr hrp
    rcases Nat.lt_or_ge r (rank v (j : Nat)) with hlt | hge
    · rw [if_pos hlt]
      rw [nodeAt_insertAt_lt _ _ _ (data.length + r) (by omega) (by rw [hlenmid]; omega)]
      have harr := nodeAt_append_right
        (data.set iP (⟨data.length, v ||| 2 ^ (j : Nat), b⟩ : Node))
        ((List.range (popcount v)).map (fun r => nodeAt data (c + r))) r
      rw [hlenset] at harr
      rw [harr, nodeAt_map_range _ _ r (by omega)]
    · have hgt : rank v (j : Nat) < r := by omega
      rw [if_neg (by omega)]
      have hk1 : data.length + r = (data.length + r - 1) + 1 := by omega
      rw [hk1, nodeAt_insertAt_ge _ _ _ (data.length + r - 1) (by omega)
        (by rw [hlenmid]; omega)]
      have hk2 : data.length + r - 1 = data.length + (r - 1) := by omega
      rw [hk2]
      have harr := nodeAt_append_right
        (data.set iP (⟨data.length, v ||| 2 ^ (j : Nat), b⟩ : Node))
        ((List.range (popcount v)).map (fun r => nodeAt data (c + r))) (r - 1)
      rw [hlenset] at harr
      rw [harr, nodeAt_map_range _ _ (r - 1) (by omega)]
  obtain ⟨data2, heqB, hlenB, hframeB, hleafB, hblocksB, hresolveB, hentryB⟩ :=
    addNodeGo_fresh rest
      (insertAt
        (data.set iP (⟨data.length, v ||| 2 ^ (j : Nat), b⟩ : Node)
          ++ (List.range (popcount v)).map (fun r => nodeAt data (c + r)))
        (data.length + rank v (j : Nat)) defaultNode)
      (data.length + rank v (j : Nat))
      (by rw [hlen3]; omega) hd3self (by rw [hlen3]; omega)
  rw [hlen3] at heqB hlenB hframeB hblocksB hresolveB hleafB hentryB
  refine ⟨data2, heqB, by omega, ?_, ?_, ?_, hresolveB, hblocksB, ?_, hleafB⟩
  · intro k hk hkP
    rw [hframeB k (by omega) (by omega), hd3low k hk]
    exact nodeAt_set_ne data iP k _ (fun h => hkP h.symm)
  · rw [hframeB iP (by omega) (by omega), hd3low iP hiP]
    exact nodeAt_set_self data iP _ hiP
  · intro r hr hrp
    rw [hframeB (data.length + r) (by omega) (by omega)]
    exact hd3copy r hr hrp
  · intro k hk hkL
    rcases Nat.lt_or_ge k (data.length + popcount v + 1) with hkmid | hkhigh
    · by_cases hkf : k = data.length + rank v (j : Nat)
      · exact hentryB k hk (Or.inr hkf)
      · have hcontent := hd3copy (k - data.length) (by omega) (by omega)
        have hkk : data.length + (k - data.length) = k := by omega
        rw [hkk] at hcontent
        rw [hframeB k (by omega) hkf, hcontent]
        apply EntryInv_mono data.length
        · omega
        · apply hinv
          split_ifs with hsplit
          · exact hreads (k - data.length) (by omega)
          · exact hreads (k - data.length - 1) (by omega)
    · exact hentryB k hk (Or.inl (by omega))

/-! ## Helpers for the global transfer -/

theorem rank_mono (v j1 j2 : Nat) (h12 : j1 ≤ j2) (hj2 : j2 < 32) :
    rank v j1 ≤ rank v j2 := by
  rw [rank_eq_card v j1 (by omega), rank_eq_card v j2 hj2]
  apply Finset.card_le_card
  intro i hi
  rw [Finset.mem_filter] at hi ⊢
  exact ⟨hi.1, by omega⟩

theorem popcount_le_8 (v : Nat) (hv : v < 256) : popcount v ≤ 8 := by
  unfold popcount
  have hsub : bitsOf v ⊆ Finset.range 8 := by
    intro i hi
    rw [mem_bitsOf] at hi
    rw [Finset.mem_range]
    by_contra hge
    rw [testBit_of_lt_256 v i hv (by omega)] at hi
    exact absurd hi.2 (by simp)
  calc (bitsOf v).card ≤ (Finset.range 8).card := Finset.card_le_card hsub
    _ = 8 := Finset.card_range 8

/-- Every sibling position below `popcount v` is the rank of a set bit. -/
theorem exists_rank_eq (v : Nat) (hv : v < 2 ^ 32) : ∀ r, r < popcount v →
    ∃ j, j < 32 ∧ v.testBit j ∧ rank v j = r := by
  intro r
  induction r with
  | zero =>
    intro hr
    have hne : (bitsOf v).Nonempty := by
      rw [← Finset.card_pos]
      exact hr
    obtain ⟨hj32, hjb⟩ := (mem_bitsOf v _).mp (Finset.min'_mem (bitsOf v) hne)
    refine ⟨(bitsOf v).min' hne, hj32, hjb, ?_⟩
    rw [rank_eq_card v _ hj32, Finset.card_eq_zero]
    rw [Finset.filter_eq_empty_iff]
    intro x hx
    have := Finset.min'_le (bitsOf v) x hx
    omega
  | succ r ih =>
    intro hr
    obtain ⟨j0, hj0, hb0, hr0⟩ := ih (by omega)
    have hj0mem : j0 ∈ bitsOf v := (mem_bitsOf v j0).mpr ⟨hj0, hb0⟩
    have hcardle : ((bitsOf v).filter (fun i => i ≤ j0)).card = r + 1 := by
      have hins : (bitsOf v).filter (fun i => i ≤ j0)
          = insert j0 ((bitsOf v).filter (fun i => i < j0)) := by
        ext x
        simp only [Finset.mem_filter, Finset.mem_insert]
        constructor
        · rintro ⟨hx, hle⟩
          rcases Nat.eq_or_lt_of_le hle with heq | hlt
          · exact Or.inl heq
          · exact Or.inr ⟨hx, hlt⟩
        · rintro (rfl | ⟨hx, hlt⟩)
          · exact ⟨hj0mem, le_refl _⟩
          · exact ⟨hx, by omega⟩
      rw [hins, Finset.card_insert_of_not_mem (by
        rw [Finset.mem_filter]
        rintro ⟨-, hlt⟩
        omega)]
      rw [← rank_eq_card v j0 hj0, hr0]
    have hnonempty : ((bitsOf v).filter (fun i => j0 < i)).Nonempty := by
      rw [← Finset.card_pos]
      have hsplit : (bitsOf v).card = ((bitsOf v).filter (fun i => i ≤ j0)).card
          + ((bitsOf v).filter (fun i => j0 < i)).card := by
        rw [← Finset.filter_card_add_filter_neg_card_eq_card
          (fun i => i ≤ j0)]
        congr 2
        ext x
        simp [Nat.not_le]
      unfold popcount at hr
      omega
    obtain ⟨hj1mem, hj1gt⟩ := Finset.mem_filter.mp
      (Finset.min'_mem _ hnonempty)
    obtain ⟨hj132, hj1b⟩ := (mem_bitsOf v _).mp hj1mem
    refine ⟨((bitsOf v).filter (fun i => j0 < i)).min' hnonempty, hj132, hj1b, ?_⟩
    rw [rank_eq_card v _ hj132]
    rw [← hcardle]
    congr 1
    ext x
    simp only [Finset.mem_filter]
    constructor
    · rintro ⟨hx, hlt⟩
      refine ⟨hx, ?_⟩
      by_contra hgt
      have hxmem : x ∈ (bitsOf v).filter (fun i => j0 < i) :=
        Finset.mem_filter.mpr ⟨hx, by omega⟩
      have := Finset.min'_le _ x hxmem
      omega
    · rintro ⟨hx, hle⟩
      exact ⟨hx, by omega⟩

theorem resolve_singleton (data : List Node) (i : Nat) (j : Fin 8) :
    resolve data i [j] = stepIdx data i j := by
  cases h : stepIdx data i j <;> simp [resolve, h]

theorem stepIdx_congr (d1 d2 : List Node) (i1 i2 : Nat) (j : Fin 8)
    (h : nodeAt d2 i2 = nodeAt d1 i1) : stepIdx d2 i2 j = stepIdx d1 i1 j := by
  unfold stepIdx
  rw [h]

theorem insertAt_len_ge (d : List Node) : ∀ (i : Nat) (a : Node),
    d.length ≤ (insertAt d i a).length := by
  induction d with
  | nil =>
    intro i a
    cases i <;> simp [insertAt]
  | cons b l ih =>
    intro i a
    cases i with
    | zero => simp [insertAt]
    | succ i =>
      simp only [insertAt, List.length_cons]
      have := ih i a
      omega

theorem copyLoop_len_ge (index oldChild : Nat) : ∀ (k i : Nat) (d : List Node),
    d.length ≤ (copyLoop index oldChild i k d).length := by
  intro k
  induction k with
  | zero => intro i d; exact le_refl _
  | succ k ih =>
    intro i d
    simp only [copyLoop]
    exact le_trans (insertAt_len_ge d _ _) (ih (i + 1) _)

theorem addNodeGo_len_mono (ms : List Nat) : ∀ data index d2 r,
    addNodeGo data index ms = some (d2, r) → data.length ≤ d2.length := by
  induction ms with
  | nil =>
    intro data index d2 r h
    simp only [addNodeGo, Option.some.injEq, Prod.mk.injEq] at h
    rw [← h.1]
  | cons mask rest ih =>
    intro data index d2 r h
    simp only [addNodeGo] at h
    split at h
    · exact absurd h (by simp)
    · split at h
      · exact ih _ _ _ _ h
      · refine le_trans ?_ (ih _ _ _ _ h)
        calc data.length
            = (data.set index _).length := (List.length_set data index _).symm
          _ ≤ _ := le_trans (copyLoop_len_ge _ _ _ _ _) (insertAt_len_ge _ _ _)

theorem insertPath_shape (data : List Node) (path : List Nat) (payload : Nat)
    (d2 : List Node) (i2 : Nat) (h : insertPath data path payload = some (d2, i2)) :
    ∃ dA, addNodeGo data 0 path = some (dA, i2) ∧
      d2 = dA.set i2 { nodeAt dA i2 with block := payload } := by
  unfold insertPath at h
  cases hA : addNodeGo data 0 path with
  | none => rw [hA] at h; exact absurd h (by simp)
  | some pr =>
    rw [hA] at h
    obtain ⟨dA, iA⟩ := pr
    simp only [Option.map_some', Option.some.injEq, Prod.mk.injEq] at h
    obtain ⟨h1, rfl⟩ := h
    exact ⟨dA, rfl, h1.symm⟩

theorem insertPath_len_mono (data : List Node) (path : List Nat) (payload : Nat)
    (d2 : List Node) (i2 : Nat) (h : insertPath data path payload = some (d2, i2)) :
    data.length ≤ d2.length := by
  obtain ⟨dA, hA, hset⟩ := insertPath_shape data path payload d2 i2 h
  rw [hset, List.length_set]
  exact addNodeGo_len_mono path data 0 dA i2 hA

/-- `add_node` either walks an already-resolvable path unchanged, or walks to
the first missing octant and continues from there. -/
theorem addNodeGo_split (js : List (Fin 8)) : ∀ index data,
    (∃ r, resolve data index js = some r ∧
      addNodeGo data index (masksOf js) = some (data, r)) ∨
    (∃ q1 j2 rest iP, js = q1 ++ j2 :: rest ∧ resolve data index q1 = some iP ∧
      stepIdx data iP j2 = none ∧
      addNodeGo data index (masksOf js) = addNodeGo data iP (masksOf (j2 :: rest))) := by
  induction js with
  | nil =>
    intro index data
    exact Or.inl ⟨index, rfl, rfl⟩
  | cons j js ih =>
    intro index data
    cases hs : stepIdx data index j with
    | none =>
      exact Or.inr ⟨[], j, js, index, rfl, rfl, hs, rfl⟩
    | some cIdx =>
      obtain ⟨hb, hcmax, hc⟩ := stepIdx_inv data index j cIdx hs
      have hstep : addNodeGo data index (masksOf (j :: js))
          = addNodeGo data cIdx (masksOf js) := by
        rw [masksOf_cons]
        simp only [addNodeGo]
        rw [if_neg (by rw [popcount_two_pow (j : Nat) (by omega)]; omega)]
        rw [if_pos ⟨(and_two_pow_eq_iff _ _).mpr hb, hcmax⟩]
        have hrk : popcount ((nodeAt data index).valid &&& (2 ^ (j : Nat) - 1))
            = rank (nodeAt data index).valid (j : Nat) := rfl
        rw [hrk, ← hc]
      rcases ih cIdx data with ⟨r, hres, heq⟩ | ⟨q1, j2, rest, iP, hjs, hres, hsn, heq⟩
      · refine Or.inl ⟨r, ?_, by rw [hstep]; exact heq⟩
        simp only [resolve, hs]
        exact hres
      · refine Or.inr ⟨j :: q1, j2, rest, iP, by rw [hjs]; rfl, ?_, hsn,
          by rw [hstep]; exact heq⟩
        simp only [resolve, hs]
        exact hres

theorem prefix_cases (q1 ks : List (Fin 8)) :
    (¬ ∃ s, ks = q1 ++ s) ∨ ks = q1 ∨ ∃ j2 ks2, ks = q1 ++ j2 :: ks2 := by
  by_cases h : ∃ s, ks = q1 ++ s
  · obtain ⟨s, rfl⟩ := h
    cases s with
    | nil => exact Or.inr (Or.inl (by simp))
    | cons a s => exact Or.inr (Or.inr ⟨a, s, rfl⟩)
  · exact Or.inl h

theorem take_append_self (a t : List (Fin 8)) : (a ++ t).take a.length = a := by
  induction a with
  | nil => rfl
  | cons x a ih => simp [ih]

theorem prefix_iff_take (a b : List (Fin 8)) :
    (∃ t, b = a ++ t) ↔ ∃ n, n ≤ b.length ∧ a = b.take n := by
  constructor
  · rintro ⟨t, rfl⟩
    exact ⟨a.length, by simp, (take_append_self a t).symm⟩
  · rintro ⟨n, hn, rfl⟩
    exact ⟨b.drop n, by simp⟩

theorem created_append (ps : List (List (Fin 8) × Nat)) (q : List (Fin 8)) (vv : Nat)
    (ks : List (Fin 8)) :
    created (ps ++ [(q, vv)]) ks ↔ created ps ks ∨ ∃ s, q = ks ++ s := by
  unfold created
  constructor
  · rintro ⟨pr, hmem, t, ht⟩
    rw [List.mem_append] at hmem
    rcases hmem with hmem | hmem
    · exact Or.inl ⟨pr, hmem, t, ht⟩
    · rw [List.mem_singleton] at hmem
      subst hmem
      exact Or.inr ⟨t, ht⟩
  · rintro (⟨pr, hmem, t, ht⟩ | ⟨s, hs⟩)
    · exact ⟨pr, List.mem_append_left _ hmem, t, ht⟩
    · exact ⟨(q, vv), List.mem_append_right _ (List.mem_singleton_self _), s, hs⟩

theorem lastWrite_append (ps : List (List (Fin 8) × Nat)) (q : List (Fin 8)) (vv : Nat)
    (ks : List (Fin 8)) :
    lastWrite (ps ++ [(q, vv)]) ks
      = if q = ks then some vv else lastWrite ps ks := by
  unfold lastWrite
  rw [List.foldl_append]
  rfl

theorem lastWrite_acc (ks : List (Fin 8)) (ps : List (List (Fin 8) × Nat)) :
    ∀ acc w, ps.foldl (fun acc pr => if pr.1 = ks then some pr.2 else acc) acc = some w →
      (∃ pr ∈ ps, pr.1 = ks) ∨ acc = some w := by
  induction ps with
  | nil =>
    intro acc w h
    exact Or.inr h
  | cons pr ps ih =>
    intro acc w h
    rw [List.foldl_cons] at h
    rcases ih _ w h with hmem | hacc
    · obtain ⟨pr2, h1, h2⟩ := hmem
      exact Or.inl ⟨pr2, List.mem_cons_of_mem _ h1, h2⟩
    · by_cases he : pr.1 = ks
      · exact Or.inl ⟨pr, List.mem_cons_self _ _, he⟩
      · rw [if_neg he] at hacc
        exact Or.inr hacc

theorem lastWrite_some_mem (ks : List (Fin 8)) (ps : List (List (Fin 8) × Nat)) (w : Nat)
    (h : lastWrite ps ks = some w) : ∃ pr ∈ ps, pr.1 = ks := by
  rcases lastWrite_acc ks ps none w h with hmem | hacc
  · exact hmem
  · exact absurd hacc (by simp)

theorem lastWrite_none_of_not_created (ks : List (Fin 8))
    (ps : List (List (Fin 8) × Nat)) (h : ¬ created ps ks) :
    lastWrite ps ks = none := by
  cases hlw : lastWrite ps ks with
  | none => rfl
  | some w =>
    obtain ⟨pr, hmem, heq⟩ := lastWrite_some_mem ks ps w hlw
    exact absurd ⟨pr, hmem, [], by rw [heq, List.append_nil]⟩ h

theorem lastWrite_isSome_of_mem (ks : List (Fin 8)) (ps : List (List (Fin 8) × Nat)) :
    ∀ acc, (∃ pr ∈ ps, pr.1 = ks) ∨ (∃ w0, acc = some w0) →
      ∃ w, ps.foldl (fun acc pr => if pr.1 = ks then some pr.2 else acc) acc = some w := by
  induction ps with
  | nil =>
    intro acc h
    rcases h with ⟨pr, hmem, -⟩ | ⟨w0, hacc⟩
    · exact absurd hmem (by simp)
    · exact ⟨w0, hacc⟩
  | cons pr ps ih =>
    intro acc h
    rw [List.foldl_cons]
    by_cases he : pr.1 = ks
    · exact ih _ (Or.inr ⟨pr.2, by rw [if_pos he]⟩)
    · apply ih
      rcases h with ⟨pr2, hmem, h2⟩ | ⟨w0, hacc⟩
      · rw [List.mem_cons] at hmem
        rcases hmem with heq2 | hmem
        · exact absurd (heq2 ▸ h2) he
        · exact Or.inl ⟨pr2, hmem, h2⟩
      · exact Or.inr ⟨w0, by rw [if_neg he]; exact hacc⟩

theorem lastWrite_mem_some (ks : List (Fin 8)) (ps : List (List (Fin 8) × Nat)) (vv : Nat)
    (h : (ks, vv) ∈ ps) : ∃ w, lastWrite ps ks = some w :=
  lastWrite_isSome_of_mem ks ps none (Or.inl ⟨(ks, vv), h, rfl⟩)

theorem rank_inj (v a b : Nat) (ha : a < 32) (hb : b < 32)
    (hba : v.testBit a = true) (hbb : v.testBit b = true)
    (h : rank v a = rank v b) : a = b := by
  rcases Nat.lt_trichotomy a b with hlt | heq | hgt
  · have := rank_strict_mono v a b hlt hb hba
    omega
  · exact heq
  · have := rank_strict_mono v b a hgt ha hbb
    omega

theorem resolve_prefix_isSome (data : List Node) (a s : List (Fin 8)) (start r : Nat)
    (h : resolve data start (a ++ s) = some r) : (resolve data start a).isSome := by
  rw [resolve_append] at h
  cases ha : resolve data start a with
  | none => rw [ha] at h; exact absurd h (by simp)
  | some r0 => simp

/-- Global effect of the miss phase of `add_node`: the extensions of
`q1 ++ [j2]` along `rest` become resolvable (the full path ending at the
returned index), every other path's resolution outcome is untouched up to
the relocation of the sibling run, path separation and the per-entry
invariant are preserved, and every resolved node's payload is either
carried over from the old store at the same path or is the default
`42069` for the newly created chain nodes. -/
theorem addNode_transfer (data : List Node) (q1 : List (Fin 8)) (j2 : Fin 8)
    (rest : List (Fin 8)) (iP : Nat)
    (hq1 : resolve data 0 q1 = some iP)
    (hstepn : stepIdx data iP j2 = none)
    (hpos : 0 < data.length)
    (hinv : EntriesInv data)
    (hsep : PathSep data)
    (hbound : data.length + 9 + rest.length ≤ U32MAX) :
    ∃ dataA i2,
      addNodeGo data iP (masksOf (j2 :: rest)) = some (dataA, i2) ∧
      data.length < dataA.length ∧
      dataA.length ≤ data.length + 9 + rest.length ∧
      EntriesInv dataA ∧
      PathSep dataA ∧
      resolve dataA 0 (q1 ++ j2 :: rest) = some i2 ∧
      (∀ ks : List (Fin 8), (resolve dataA 0 ks).isSome ↔ ((resolve data 0 ks).isSome ∨
        ∃ t, t ≤ rest.length ∧ ks = q1 ++ j2 :: rest.take t)) ∧
      (∀ ks r, resolve dataA 0 ks = some r →
        (∃ r0, resolve data 0 ks = some r0 ∧
          (nodeAt dataA r).block = (nodeAt data r0).block) ∨
        (resolve data 0 ks = none ∧ (nodeAt dataA r).block = 42069)) := by
  have hj32 : (j2 : Nat) < 32 := by have := j2.isLt; omega
  have hiP : iP < data.length := resolve_lt data hinv q1 0 iP hpos hq1
  rcases hnd : nodeAt data iP with ⟨c, v, b⟩
  have hv256 : v < 256 := by
    have h := (hinv iP hiP).1
    rw [hnd] at h
    exact h
  have hLmax : data.length < U32MAX := by
    unfold U32MAX at hbound ⊢
    omega
  have hcne : v ≠ 0 → c ≠ U32MAX ∧ c + popcount v ≤ data.length := by
    intro hvne
    have hle : c + popcount v ≤ data.length := by
      have h := (hinv iP hiP).2.2
      rw [hnd] at h
      exact h hvne
    have hpc : 0 < popcount v := by
      rcases Nat.eq_zero_or_pos (popcount v) with h0 | h0
      · exact absurd ((popcount_eq_zero v (by omega)).mp h0) hvne
      · exact h0
    refine ⟨?_, hle⟩
    intro hcm
    rw [hcm] at hle
    omega
  have hmiss : v.testBit (j2 : Nat) = false := by
    by_contra hbt
    rw [Bool.not_eq_false] at hbt
    have hvne : v ≠ 0 := by
      intro h0
      rw [h0, Nat.zero_testBit] at hbt
      exact absurd hbt (by simp)
    have hs := stepIdx_some_of data iP j2 (by rw [hnd]; exact hbt)
      (by rw [hnd]; exact (hcne hvne).1)
    rw [hstepn] at hs
    exact absurd hs (by simp)
  have hstepOld : ∀ j' : Fin 8, v.testBit (j' : Nat) = true →
      stepIdx data iP j' = some (c + rank v (j' : Nat)) := by
    intro j' hb'
    have hvne : v ≠ 0 := by
      intro h0
      rw [h0, Nat.zero_testBit] at hb'
      exact absurd hb' (by simp)
    have h := stepIdx_some_of data iP j' (by rw [hnd]; exact hb')
      (by rw [hnd]; exact (hcne hvne).1)
    rw [h, hnd]
  have holdcomp : ∀ (j' : Fin 8), v.testBit (j' : Nat) = true → ∀ ks2,
      resolve data 0 (q1 ++ j' :: ks2) = resolve data (c + rank v (j' : Nat)) ks2 := by
    intro j' hb' ks2
    rw [resolve_append, hq1]
    simp only [Option.some_bind, resolve, hstepOld j' hb']
  have hnoalias : ∀ r, r < popcount v → c + r ≠ iP := by
    intro r hr heq
    obtain ⟨j', hj'32, hbj', hrank⟩ := exists_rank_eq v (by omega) r hr
    have hj'8 : j' < 8 := by
      by_contra hge
      rw [testBit_of_lt_256 v j' hv256 (by omega)] at hbj'
      exact absurd hbj' (by simp)
    have hres : resolve data 0 (q1 ++ [(⟨j', hj'8⟩ : Fin 8)]) = some iP := by
      rw [holdcomp ⟨j', hj'8⟩ hbj' []]
      simp only [resolve]
      rw [hrank, heq]
    have heqp := hsep _ q1 iP hres hq1
    have hlen := congrArg List.length heqp
    rw [List.length_append, List.length_singleton] at hlen
    omega
  have hq8 : popcount v ≤ 8 := popcount_le_8 v hv256
  have hboundv : data.length + popcount v + 1 + rest.length ≤ U32MAX := by omega
  obtain ⟨dataA, heqA, hlenA, hframe, hiPnew, hcopies, hchain, hchainblk, hnewinv, hleaf⟩ :=
    addNodeGo_miss data iP j2 rest c v b hnd hinv hiP hmiss hnoalias hboundv
  have hple : rank v (j2 : Nat) ≤ popcount v := rank_le_popcount v _ hj32
  have hv2bits : ∀ i, (v ||| 2 ^ (j2 : Nat)).testBit i
      = (v.testBit i || decide ((j2 : Nat) = i)) :=
    fun i => lor_two_pow_testBit v (j2 : Nat) i
  have hv2j2 : (v ||| 2 ^ (j2 : Nat)).testBit (j2 : Nat) = true := by
    rw [hv2bits]
    simp
  have hv2of : ∀ j' : Fin 8, v.testBit (j' : Nat) = true →
      (v ||| 2 ^ (j2 : Nat)).testBit (j' : Nat) = true := by
    intro j' hb'
    rw [hv2bits]
    simp [hb']
  have hv2none : ∀ j' : Fin 8, v.testBit (j' : Nat) = false → (j' : Nat) ≠ (j2 : Nat) →
      (v ||| 2 ^ (j2 : Nat)).testBit (j' : Nat) = false := by
    intro j' hb' hne
    rw [hv2bits]
    simp only [hb', Bool.false_or, decide_eq_false_iff_not]
    omega
  have hold_lt : ∀ ks r3, resolve data 0 ks = some r3 → r3 < data.length :=
    fun ks r3 h => resolve_lt data hinv ks 0 r3 hpos h
  have hold_ne : ∀ ks r3, resolve data 0 ks = some r3 → ks ≠ q1 → r3 ≠ iP := by
    intro ks r3 h hne heq
    subst heq
    exact hne (hsep ks q1 r3 h hq1)
  have hagree : ∀ ks : List (Fin 8), (¬ ∃ s, ks = q1 ++ s) →
      resolve dataA 0 ks = resolve data 0 ks := by
    intro ks hno
    apply resolve_congr
    intro t r3 ht hr3
    have hlt := hold_lt _ r3 hr3
    have hne : ks.take t ≠ q1 := by
      intro heq
      exact hno ⟨ks.drop t, by rw [← heq, List.take_append_drop]⟩
    exact hframe r3 hlt (hold_ne _ r3 hr3 hne)
  have hq1A : resolve dataA 0 q1 = some iP := by
    rw [← hq1]
    apply resolve_congr
    intro t r3 ht hr3
    have hlt := hold_lt _ r3 hr3
    have hne : q1.take t ≠ q1 := by
      intro heq
      have hl := congrArg List.length heq
      rw [List.length_take] at hl
      omega
    exact hframe r3 hlt (hold_ne _ r3 hr3 hne)
  have hstepj2A : stepIdx dataA iP j2 = some (data.length + rank v (j2 : Nat)) := by
    have h := stepIdx_some_of dataA iP j2 (by rw [hiPnew]; exact hv2j2)
      (by rw [hiPnew]; show data.length ≠ U32MAX; omega)
    rw [h]
    simp only [hiPnew]
    rw [rank_lor_self v (j2 : Nat) hj32]
  have hstepA : ∀ j' : Fin 8, v.testBit (j' : Nat) = true →
      stepIdx dataA iP j'
        = some (data.length + rank (v ||| 2 ^ (j2 : Nat)) (j' : Nat)) := by
    intro j' hb'
    have h := stepIdx_some_of dataA iP j' (by rw [hiPnew]; exact hv2of j' hb')
      (by rw [hiPnew]; show data.length ≠ U32MAX; omega)
    rw [h]
    simp only [hiPnew]
  have hrankv2 : ∀ j' : Fin 8, v.testBit (j' : Nat) = true → (j' : Nat) ≠ (j2 : Nat) →
      rank (v ||| 2 ^ (j2 : Nat)) (j' : Nat)
        = rank v (j' : Nat) + (if (j2 : Nat) < (j' : Nat) then 1 else 0) := by
    intro j' hb' hne
    exact rank_lor_other v (j2 : Nat) (j' : Nat) hj32 (by have := j'.isLt; omega) hmiss
  have hr'facts : ∀ j' : Fin 8, v.testBit (j' : Nat) = true → (j' : Nat) ≠ (j2 : Nat) →
      rank (v ||| 2 ^ (j2 : Nat)) (j' : Nat) ≤ popcount v ∧
      rank (v ||| 2 ^ (j2 : Nat)) (j' : Nat) ≠ rank v (j2 : Nat) ∧
      (c + (if rank (v ||| 2 ^ (j2 : Nat)) (j' : Nat) < rank v (j2 : Nat)
        then rank (v ||| 2 ^ (j2 : Nat)) (j' : Nat)
        else rank (v ||| 2 ^ (j2 : Nat)) (j' : Nat) - 1)) = c + rank v (j' : Nat) := by
    intro j' hb' hne
    have hj'32 : (j' : Nat) < 32 := by have := j'.isLt; omega
    have hlt := rank_lt_popcount v (j' : Nat) hj'32 hb'
    rw [hrankv2 j' hb' hne]
    rcases Nat.lt_or_ge (j' : Nat) (j2 : Nat) with hltj | hgej
    · have hr1 : rank v (j' : Nat) < rank v (j2 : Nat) :=
        rank_strict_mono v _ _ hltj hj32 hb'
      rw [if_neg (by omega)]
      refine ⟨by omega, by omega, ?_⟩
      rw [if_pos (by omega)]
      omega
    · have hgtj : (j2 : Nat) < (j' : Nat) := by omega
      have hr1 : rank v (j2 : Nat) ≤ rank v (j' : Nat) := rank_mono v _ _ (by omega) hj'32
      rw [if_pos hgtj]
      refine ⟨by omega, by omega, ?_⟩
      rw [if_neg (by omega)]
      omega
  have hcopyat : ∀ j' : Fin 8, v.testBit (j' : Nat) = true → (j' : Nat) ≠ (j2 : Nat) →
      nodeAt dataA (data.length + rank (v ||| 2 ^ (j2 : Nat)) (j' : Nat))
        = nodeAt data (c + rank v (j' : Nat)) := by
    intro j' hb' hne
    obtain ⟨h1, h2, h3⟩ := hr'facts j' hb' hne
    rw [hcopies _ h1 h2, h3]
  have hdeepeq : ∀ (j' : Fin 8), v.testBit (j' : Nat) = true → (j' : Nat) ≠ (j2 : Nat) →
      ∀ (h2 : Fin 8) (tl : List (Fin 8)),
      resolve dataA (data.length + rank (v ||| 2 ^ (j2 : Nat)) (j' : Nat)) (h2 :: tl)
        = resolve data (c + rank v (j' : Nat)) (h2 :: tl) := by
    intro j' hb' hne h2 tl
    simp only [resolve]
    rw [stepIdx_congr data dataA _ _ h2 (hcopyat j' hb' hne)]
    cases hs2 : stepIdx data (c + rank v (j' : Nat)) h2 with
    | none => rfl
    | some tgt =>
      apply resolve_congr
      intro u r3 hu hr3
      have hglob : resolve data 0 (q1 ++ j' :: h2 :: tl.take u) = some r3 := by
        rw [holdcomp j' hb']
        simp only [resolve, hs2]
        exact hr3
      refine hframe r3 (hold_lt _ r3 hglob) (hold_ne _ r3 hglob ?_)
      intro heq
      have hl := congrArg List.length heq
      simp only [List.length_append, List.length_cons] at hl
      omega
  have hfullA : resolve dataA 0 (q1 ++ j2 :: rest)
      = some (chainIdx (data.length + popcount v + 1)
          (data.length + rank v (j2 : Nat)) rest.length) := by
    rw [resolve_append, hq1A]
    simp only [Option.some_bind, resolve, hstepj2A]
    exact (hchain rest _).mpr ⟨rest.length, le_refl _, (List.take_length rest).symm, rfl⟩
  have hclass : ∀ ks r, resolve dataA 0 ks = some r →
      (resolve data 0 ks = some r) ∨
      (∃ j' : Fin 8, v.testBit (j' : Nat) = true ∧ (j' : Nat) ≠ (j2 : Nat) ∧
        ks = q1 ++ [j'] ∧ r = data.length + rank (v ||| 2 ^ (j2 : Nat)) (j' : Nat)) ∨
      (∃ t, t ≤ rest.length ∧ ks = q1 ++ j2 :: rest.take t ∧
        r = chainIdx (data.length + popcount v + 1)
          (data.length + rank v (j2 : Nat)) t) := by
    intro ks r h
    rcases prefix_cases q1 ks with hno | hq1eq | ⟨j', ks2, hks⟩
    · rw [hagree ks hno] at h
      exact Or.inl h
    · subst hq1eq
      rw [hq1A] at h
      injection h with h
      exact Or.inl (by rw [← h]; exact hq1)
    · subst hks
      rw [resolve_append, hq1A] at h
      simp only [Option.some_bind, resolve] at h
      by_cases hj'j2 : (j' : Nat) = (j2 : Nat)
      · have hjj : j' = j2 := Fin.ext hj'j2
        subst hjj
        simp only [hstepj2A] at h
        obtain ⟨t, ht, hks2, hr⟩ := (hchain ks2 r).mp h
        exact Or.inr (Or.inr ⟨t, ht, by rw [hks2], hr⟩)
      · by_cases hb' : v.testBit (j' : Nat) = true
        · simp only [hstepA j' hb'] at h
          cases ks2 with
          | nil =>
            simp only [resolve, Option.some.injEq] at h
            exact Or.inr (Or.inl ⟨j', hb', hj'j2, rfl, h.symm⟩)
          | cons h2 tl =>
            rw [hdeepeq j' hb' hj'j2 h2 tl] at h
            refine Or.inl ?_
            rw [holdcomp j' hb']
            exact h
        · rw [Bool.not_eq_true] at hb'
          simp only [stepIdx_none_of dataA iP j'
            (by rw [hiPnew]; exact hv2none j' hb' hj'j2)] at h
          exact absurd h (by simp)
  have hfor : ∀ ks r0, resolve data 0 ks = some r0 → (resolve dataA 0 ks).isSome := by
    intro ks r0 h
    rcases prefix_cases q1 ks with hno | hq1eq | ⟨j', ks2, hks⟩
    · rw [hagree ks hno, h]
      rfl
    · subst hq1eq
      rw [hq1A]
      rfl
    · subst hks
      rw [resolve_append, hq1] at h
      simp only [Option.some_bind, resolve] at h
      by_cases hb' : v.testBit (j' : Nat) = true
      · have hj'ne : (j' : Nat) ≠ (j2 : Nat) := by
          intro heq
          rw [heq, hmiss] at hb'
          exact absurd hb' (by simp)
        simp only [hstepOld j' hb'] at h
        rw [resolve_append, hq1A]
        simp only [Option.some_bind, resolve, hstepA j' hb']
        cases ks2 with
        | nil => rfl
        | cons h2 tl =>
          rw [hdeepeq j' hb' hj'ne h2 tl, h]
          rfl
      · rw [Bool.not_eq_true] at hb'
        simp only [stepIdx_none_of data iP j' (by rw [hnd]; exact hb')] at h
        exact absurd h (by simp)
  refine ⟨dataA, chainIdx (data.length + popcount v + 1)
      (data.length + rank v (j2 : Nat)) rest.length,
    heqA, by omega, by omega, ?_, ?_, hfullA, ?_, ?_⟩
  · intro k hk
    rcases Nat.lt_or_ge k data.length with hklt | hkge
    · by_cases hkP : k = iP
      · subst hkP
        rw [hiPnew]
        refine ⟨?_, ?_, ?_⟩
        · show v ||| 2 ^ (j2 : Nat) < 256
          refine valid_lt_256_lor v _ hv256 ?_
          calc (2 : Nat) ^ (j2 : Nat) ≤ 2 ^ 7 :=
                Nat.pow_le_pow_right (by omega) (by have := j2.isLt; omega)
            _ < 256 := by omega
        · intro h0
          exfalso
          have h0' : v ||| 2 ^ (j2 : Nat) = 0 := h0
          rw [h0', Nat.zero_testBit] at hv2j2
          exact absurd hv2j2 (by simp)
        · intro hne0
          show data.length + popcount (v ||| 2 ^ (j2 : Nat)) ≤ dataA.length
          rw [popcount_lor_two_pow v _ hj32 hmiss]
          omega
      · rw [hframe k hklt hkP]
        exact EntryInv_mono data.length dataA.length _ (by omega) (hinv k hklt)
    · exact hnewinv k hk hkge
  · intro ks1 ks2 r h1 h2
    rcases hclass ks1 r h1 with hc1 | ⟨j1', hb1, hne1, hks1, hr1⟩ | ⟨t1, ht1, hks1, hr1⟩ <;>
      rcases hclass ks2 r h2 with hc2 | ⟨j2', hb2, hne2, hks2, hr2⟩ | ⟨t2, ht2, hks2, hr2⟩
    · exact hsep ks1 ks2 r hc1 hc2
    · exact absurd (hold_lt ks1 r hc1) (by omega)
    · refine absurd (hold_lt ks1 r hc1) ?_
      unfold chainIdx at hr2
      split_ifs at hr2 <;> omega
    · exact absurd (hold_lt ks2 r hc2) (by omega)
    · obtain ⟨hf1, -, -⟩ := hr'facts j1' hb1 hne1
      obtain ⟨hf2, -, -⟩ := hr'facts j2' hb2 hne2
      have hre : rank (v ||| 2 ^ (j2 : Nat)) (j1' : Nat)
          = rank (v ||| 2 ^ (j2 : Nat)) (j2' : Nat) := by omega
      have hjj : (j1' : Nat) = (j2' : Nat) :=
        rank_inj (v ||| 2 ^ (j2 : Nat)) _ _ (by have := j1'.isLt; omega)
          (by have := j2'.isLt; omega) (hv2of j1' hb1) (hv2of j2' hb2) hre
      rw [hks1, hks2, Fin.ext hjj]
    · obtain ⟨hf1, hf2, -⟩ := hr'facts j1' hb1 hne1
      exfalso
      unfold chainIdx at hr2
      split_ifs at hr2 <;> omega
    · refine absurd (hold_lt ks2 r hc2) ?_
      unfold chainIdx at hr1
      split_ifs at hr1 <;> omega
    · obtain ⟨hf1, hf2, -⟩ := hr'facts j2' hb2 hne2
      exfalso
      unfold chainIdx at hr1
      split_ifs at hr1 <;> omega
    · unfold chainIdx at hr1 hr2
      split_ifs at hr1 hr2 with hz1 hz2 hz2
      · rw [hks1, hks2, hz1, hz2]
      · exfalso; omega
      · exfalso; omega
      · have htt : t1 = t2 := by omega
        rw [hks1, hks2, htt]
  · intro ks
    constructor
    · intro h
      obtain ⟨r, hr⟩ := Option.isSome_iff_exists.mp h
      rcases hclass ks r hr with hc | ⟨j', hb', hne', hks, -⟩ | ⟨t, ht, hks, -⟩
      · exact Or.inl (by rw [hc]; rfl)
      · refine Or.inl ?_
        rw [hks, holdcomp j' hb' []]
        rfl
      · exact Or.inr ⟨t, ht, hks⟩
    · intro h
      rcases h with h | ⟨t, ht, hks⟩
      · obtain ⟨r0, hr0⟩ := Option.isSome_iff_exists.mp h
        exact hfor ks r0 hr0
      · subst hks
        rw [resolve_append, hq1A]
        simp only [Option.some_bind, resolve, hstepj2A]
        have hhit := (hchain (rest.take t) (chainIdx (data.length + popcount v + 1)
          (data.length + rank v (j2 : Nat)) t)).mpr ⟨t, ht, rfl, rfl⟩
        rw [hhit]
        rfl
  · intro ks r h
    rcases hclass ks r h with hc | ⟨j', hb', hne', hks, hr⟩ | ⟨t, ht, hks, hr⟩
    · refine Or.inl ⟨r, hc, ?_⟩
      by_cases hrP : r = iP
      · subst hrP
        rw [hiPnew, hnd]
      · rw [hframe r (hold_lt ks r hc) hrP]
    · refine Or.inl ⟨c + rank v (j' : Nat), ?_, ?_⟩
      · rw [hks, holdcomp j' hb' []]
        rfl
      · rw [hr, hcopyat j' hb' hne']
    · refine Or.inr ⟨?_, ?_⟩
      · rw [hks, resolve_append, hq1]
        simp only [Option.some_bind, resolve, hstepn]
      · rw [hr]
        exact hchainblk t ht

/-! ## The reachable-store invariant -/

theorem set_oob (d : List Node) : ∀ (i : Nat) (a : Node), d.length ≤ i →
    d.set i a = d := by
  induction d with
  | nil => intro i a h; cases i <;> rfl
  | cons b l ih =>
    intro i a h
    cases i with
    | zero => simp at h
    | succ i =>
      simp only [List.set]
      rw [ih i a (by simpa using h)]

theorem setBlock_shape (dA : List Node) (iA : Nat) (vv : Nat) (k : Nat) :
    (nodeAt (dA.set iA { nodeAt dA iA with block := vv }) k).valid
      = (nodeAt dA k).valid ∧
    (nodeAt (dA.set iA { nodeAt dA iA with block := vv }) k).child
      = (nodeAt dA k).child := by
  by_cases hk : iA = k
  · subst hk
    rcases Nat.lt_or_ge iA dA.length with hlt | hge
    · rw [nodeAt_set_self dA iA _ hlt]
      exact ⟨rfl, rfl⟩
    · rw [set_oob dA iA _ hge]
      exact ⟨rfl, rfl⟩
  · rw [nodeAt_set_ne dA iA k _ hk]
    exact ⟨rfl, rfl⟩

/-- The invariant of every store reachable by a sequence of insertions:
nonempty, well-formed entries, distinct paths hit distinct indices, a path
resolves iff it is the root or a prefix of an inserted path, and a resolved
node's payload is the last value written at exactly its path, defaulting to
the sentinel `42069`. -/
def GoodState (ps : List (List (Fin 8) × Nat)) (data : List Node) : Prop :=
  0 < data.length ∧ EntriesInv data ∧ PathSep data ∧
    (∀ ks : List (Fin 8), (resolve data 0 ks).isSome ↔ (ks = [] ∨ created ps ks)) ∧
    (∀ ks r, resolve data 0 ks = some r →
      (nodeAt data r).block = (lastWrite ps ks).getD 42069)

theorem goodState_init : GoodState [] octreeNew.data := by
  have hstep : ∀ j : Fin 8, stepIdx octreeNew.data 0 j = none :=
    fun j => stepIdx_none_of _ 0 j (Nat.zero_testBit _)
  refine ⟨by simp [octreeNew], ?_, ?_, ?_, ?_⟩
  · intro i hi
    have hi0 : i = 0 := by
      simp only [octreeNew, List.length_singleton] at hi
      omega
    subst hi0
    exact ⟨by norm_num [octreeNew, nodeAt, defaultNode], fun _ => rfl,
      fun hne => absurd rfl hne⟩
  · intro js1 js2 i h1 h2
    cases js1 with
    | cons j js =>
      simp only [resolve, hstep j] at h1
      exact absurd h1 (by simp)
    | nil =>
      cases js2 with
      | cons j js =>
        simp only [resolve, hstep j] at h2
        exact absurd h2 (by simp)
      | nil => rfl
  · intro ks
    cases ks with
    | nil =>
      simp [resolve, created]
    | cons j ks =>
      simp only [resolve, hstep j]
      simp [created]
  · intro ks r h
    cases ks with
    | nil =>
      injection h with h
      subst h
      rfl
    | cons j ks =>
      simp only [resolve, hstep j] at h
      exact absurd h (by simp)

/-- One insertion (`add_node` + payload write) preserves the reachable-store
invariant, extends the write log, and leaves the returned index resolvable
at the inserted path. -/
theorem insertPath_good (ps : List (List (Fin 8) × Nat)) (data : List Node)
    (good : GoodState ps data) (js : List (Fin 8)) (vv : Nat)
    (data2 : List Node) (i2 : Nat)
    (hins : insertPath data (masksOf js) vv = some (data2, i2))
    (hbound : data.length + 9 + js.length ≤ U32MAX) :
    GoodState (ps ++ [(js, vv)]) data2 ∧ data.length ≤ data2.length ∧
      data2.length ≤ data.length + 9 + js.length ∧ resolve data2 0 js = some i2 := by
  obtain ⟨hpos, hinv, hsep, hres, hblk⟩ := good
  obtain ⟨dA, hA, hset⟩ := insertPath_shape data (masksOf js) vv data2 i2 hins
  rcases addNodeGo_split js 0 data with ⟨r, hresJ, heq⟩ |
    ⟨q1, j2, rest, iP, hjs, hq1, hstepn, heq⟩
  · rw [heq] at hA
    simp only [Option.some.injEq, Prod.mk.injEq] at hA
    obtain ⟨rfl, rfl⟩ := hA
    have hrlt : r < data.length := resolve_lt data hinv js 0 r hpos hresJ
    have hshape : ∀ k, (nodeAt data2 k).valid = (nodeAt data k).valid ∧
        (nodeAt data2 k).child = (nodeAt data k).child := by
      intro k
      rw [hset]
      exact setBlock_shape data r vv k
    have hreseq : ∀ start ks, resolve data2 start ks = resolve data start ks :=
      fun start ks => resolve_eq_of_same_shape data data2 hshape ks start
    have hlen2 : data2.length = data.length := by rw [hset, List.length_set]
    have hblock2 : ∀ k, k ≠ r → (nodeAt data2 k).block = (nodeAt data k).block := by
      intro k hk
      rw [hset, nodeAt_set_ne data r k _ (fun h => hk h.symm)]
    have hblockr : (nodeAt data2 r).block = vv := by
      rw [hset, nodeAt_set_self data r _ hrlt]
    refine ⟨⟨by omega, ?_, ?_, ?_, ?_⟩, by omega, by omega,
      by rw [hreseq 0 js]; exact hresJ⟩
    · intro k hk
      rw [hlen2] at hk
      have h := hinv k hk
      obtain ⟨hv, hc⟩ := hshape k
      exact ⟨by rw [hv]; exact h.1, by rw [hv, hc]; exact h.2.1,
        by rw [hv, hc, hlen2]; exact h.2.2⟩
    · intro ks1 ks2 i h1 h2
      rw [hreseq 0 ks1] at h1
      rw [hreseq 0 ks2] at h2
      exact hsep ks1 ks2 i h1 h2
    · intro ks
      rw [hreseq 0 ks]
      constructor
      · intro h
        rcases (hres ks).mp h with h0 | hcr
        · exact Or.inl h0
        · exact Or.inr ((created_append ps js vv ks).mpr (Or.inl hcr))
      · rintro (h0 | hcr)
        · subst h0
          rfl
        · rcases (created_append ps js vv ks).mp hcr with hcr | ⟨s, hs⟩
          · exact (hres ks).mpr (Or.inr hcr)
          · rw [hs] at hresJ
            exact resolve_prefix_isSome data ks s 0 r hresJ
    · intro ks r2 h
      rw [hreseq 0 ks] at h
      by_cases hr2 : r2 = r
      · subst hr2
        have hksjs : ks = js := hsep ks js r2 h hresJ
        subst hksjs
        rw [hblockr, lastWrite_append, if_pos rfl]
        rfl
      · have hne : js ≠ ks := by
          intro hjs2
          rw [← hjs2, hresJ] at h
          injection h with h
          exact hr2 h.symm
        rw [hblock2 r2 hr2, hblk ks r2 h, lastWrite_append, if_neg hne]
  · have hlenjs : js.length = q1.length + 1 + rest.length := by
      rw [hjs, List.length_append, List.length_cons]
      omega
    obtain ⟨dataA, iA, heqA, hlt, hub, hinvA, hsepA, hfullA, hresA, hblkA⟩ :=
      addNode_transfer data q1 j2 rest iP hq1 hstepn hpos hinv hsep (by omega)
    rw [heq, heqA] at hA
    simp only [Option.some.injEq, Prod.mk.injEq] at hA
    obtain ⟨rfl, rfl⟩ := hA
    have hfullJ : resolve dataA 0 js = some iA := by
      rw [hjs]
      exact hfullA
    have hposA : 0 < dataA.length := by omega
    have hiAlt : iA < dataA.length := resolve_lt dataA hinvA js 0 iA hposA hfullJ
    have hshape : ∀ k, (nodeAt data2 k).valid = (nodeAt dataA k).valid ∧
        (nodeAt data2 k).child = (nodeAt dataA k).child := by
      intro k
      rw [hset]
      exact setBlock_shape dataA iA vv k
    have hreseq : ∀ start ks, resolve data2 start ks = resolve dataA start ks :=
      fun start ks => resolve_eq_of_same_shape dataA data2 hshape ks start
    have hlen2 : data2.length = dataA.length := by rw [hset, List.length_set]
    have hblock2 : ∀ k, k ≠ iA → (nodeAt data2 k).block = (nodeAt dataA k).block := by
      intro k hk
      rw [hset, nodeAt_set_ne dataA iA k _ (fun h => hk h.symm)]
    have hblockr : (nodeAt data2 iA).block = vv := by
      rw [hset, nodeAt_set_self dataA iA _ hiAlt]
    refine ⟨⟨by omega, ?_, ?_, ?_, ?_⟩, by omega, by omega,
      by rw [hreseq 0 js]; exact hfullJ⟩
    · intro k hk
      rw [hlen2] at hk
      have h := hinvA k hk
      obtain ⟨hv, hc⟩ := hshape k
      exact ⟨by rw [hv]; exact h.1, by rw [hv, hc]; exact h.2.1,
        by rw [hv, hc, hlen2]; exact h.2.2⟩
    · intro ks1 ks2 i h1 h2
      rw [hreseq 0 ks1] at h1
      rw [hreseq 0 ks2] at h2
      exact hsepA ks1 ks2 i h1 h2
    · intro ks
      constructor
      · intro h
        rw [hreseq 0 ks] at h
        rcases (hresA ks).mp h with h | ⟨t, ht, hks⟩
        · rcases (hres ks).mp h with h0 | hcr
          · exact Or.inl h0
          · exact Or.inr ((created_append ps js vv ks).mpr (Or.inl hcr))
        · refine Or.inr ((created_append ps js vv ks).mpr (Or.inr ⟨rest.drop t, ?_⟩))
          rw [hjs, hks, List.append_assoc, List.cons_append, List.take_append_drop]
      · intro h
        rw [hreseq 0 ks]
        rcases h with h0 | hcr
        · subst h0
          rfl
        · rcases (created_append ps js vv ks).mp hcr with hcr | ⟨s, hs⟩
          · rw [hresA ks]
            exact Or.inl ((hres ks).mpr (Or.inr hcr))
          · exact resolve_prefix_isSome dataA ks s 0 iA (by rw [← hs]; exact hfullJ)
    · intro ks r2 h
      rw [hreseq 0 ks] at h
      by_cases hr2 : r2 = iA
      · subst hr2
        have hksjs : ks = js := hsepA ks js r2 h hfullJ
        subst hksjs
        rw [hblockr, lastWrite_append, if_pos rfl]
        rfl
      · have hne : js ≠ ks := by
          intro hjs2
          rw [← hjs2, hfullJ] at h
          injection h with h
          exact hr2 h.symm
        rw [hblock2 r2 hr2, lastWrite_append, if_neg hne]
        rcases hblkA ks r2 h with ⟨r0, hold, hbeq⟩ | ⟨holdn, hbeq⟩
        · rw [hbeq, hblk ks r0 hold]
        · rw [hbeq]
          have hncr : ¬ created ps ks := by
            intro hcr
            have hso := (hres ks).mpr (Or.inr hcr)
            rw [holdn] at hso
            simp at hso
          rw [lastWrite_none_of_not_created ks ps hncr]
          rfl

theorem foldlM_option_append {α β : Type} (g : β → α → Option β) (l1 l2 : List α) :
    ∀ init, (l1 ++ l2).foldlM g init = (l1.foldlM g init).bind (fun x => l2.foldlM g x) := by
  induction l1 with
  | nil =>
    intro init
    simp
  | cons a l1 ih =>
    intro init
    simp only [List.cons_append, List.foldlM_cons]
    cases hg : g init a with
    | none => simp
    | some x => simp [ih x]

theorem insertAll_append_one (l : List (List Nat × Nat)) (x : List Nat × Nat) :
    insertAll (l ++ [x])
      = (insertAll l).bind (fun d => (insertPath d x.1 x.2).map Prod.fst) := by
  unfold insertAll
  rw [foldlM_option_append]
  congr 1
  funext d
  simp

theorem insertAllM_append_one (ps : List (List (Fin 8) × Nat))
    (pr : List (Fin 8) × Nat) :
    insertAllM (ps ++ [pr])
      = (insertAllM ps).bind (fun d => (insertPath d (masksOf pr.1) pr.2).map Prod.fst) := by
  unfold insertAllM
  rw [List.map_append]
  exact insertAll_append_one _ _

/-- Master invariant theorem: every store reachable by a panic-free sequence
of insertions (with room left below `u32::MAX`) satisfies the
reachable-store invariant. -/
theorem insertAllM_good (ps : List (List (Fin 8) × Nat)) :
    ∀ data, insertAllM ps = some data →
    (∀ pr ∈ ps, data.length + 9 + pr.1.length ≤ U32MAX) →
    GoodState ps data := by
  induction ps using List.reverseRecOn with
  | nil =>
    intro data h hb
    have hdd : octreeNew.data = data := by
      have h' : some octreeNew.data = some data := h
      injection h'
    rw [← hdd]
    exact goodState_init
  | append_singleton ps pr ih =>
    intro data h hb
    rw [insertAllM_append_one] at h
    cases h1 : insertAllM ps with
    | none =>
      rw [h1] at h
      exact absurd h (by simp)
    | some d1 =>
      rw [h1] at h
      simp only [Option.some_bind] at h
      cases h2 : insertPath d1 (masksOf pr.1) pr.2 with
      | none =>
        rw [h2] at h
        exact absurd h (by simp)
      | some pr2 =>
        obtain ⟨d2, i2⟩ := pr2
        rw [h2] at h
        simp only [Option.map_some', Option.some.injEq] at h
        subst h
        have hmono : d1.length ≤ d2.length := insertPath_len_mono d1 _ _ d2 i2 h2
        have hgood1 : GoodState ps d1 := by
          refine ih d1 h1 ?_
          intro pr' hmem
          have := hb pr' (List.mem_append_left _ hmem)
          omega
        have hstep := insertPath_good ps d1 hgood1 pr.1 pr.2 d2 i2 h2 (by
          have := hb pr (List.mem_append_right _ (List.mem_singleton_self _))
          omega)
        exact hstep.1

/-! ## Claims C2, C3, C7, C10 -/

/-- C2: sibling ordering invariant.  After any panic-free sequence of
insertions into a fresh store (with room left below `u32::MAX`), every
node with an empty `valid` mask carries the sentinel child pointer, and
every node with `popcount valid = k > 0` has its `k` children exactly at
the contiguous in-bounds indices `child, …, child + k - 1`: the child for
set bit `j` sits at `child + rank valid j`, a lower set bit sits at a
strictly lower index, and every slot of the run is the child of some set
bit. -/
theorem sibling_ordering (ps : List (List (Fin 8) × Nat)) (data : List Node)
    (h : insertAllM ps = some data)
    (hroom : ∀ pr ∈ ps, data.length + 9 + pr.1.length ≤ U32MAX) :
    ∀ i, i < data.length →
      ((nodeAt data i).valid = 0 → (nodeAt data i).child = U32MAX) ∧
      ((nodeAt data i).valid ≠ 0 →
        (nodeAt data i).child + popcount (nodeAt data i).valid ≤ data.length) ∧
      (∀ j1 j2 : Nat, j1 < j2 → j2 < 8 → (nodeAt data i).valid.testBit j1 = true →
        (nodeAt data i).valid.testBit j2 = true →
        (nodeAt data i).child + rank (nodeAt data i).valid j1
          < (nodeAt data i).child + rank (nodeAt data i).valid j2 ∧
        (nodeAt data i).child + rank (nodeAt data i).valid j2
          < (nodeAt data i).child + popcount (nodeAt data i).valid) ∧
      (∀ r, r < popcount (nodeAt data i).valid → ∃ j, j < 8 ∧
        (nodeAt data i).valid.testBit j = true ∧
        rank (nodeAt data i).valid j = r) := by
  intro i hi
  obtain ⟨-, hinv, -, -, -⟩ := insertAllM_good ps data h hroom
  have hE := hinv i hi
  refine ⟨hE.2.1, hE.2.2, ?_, ?_⟩
  · intro j1 j2 h12 hj2 hb1 hb2
    have hlt := rank_strict_mono (nodeAt data i).valid j1 j2 h12 (by omega) hb1
    have hlt2 := rank_lt_popcount (nodeAt data i).valid j2 (by omega) hb2
    omega
  · intro r hr
    obtain ⟨j, hj32, hbj, hrank⟩ :=
      exists_rank_eq (nodeAt data i).valid (by have := hE.1; omega) r hr
    have hj8 : j < 8 := by
      by_contra hge
      rw [testBit_of_lt_256 _ j hE.1 (by omega)] at hbj
      exact absurd hbj (by simp)
    exact ⟨j, hj8, hbj, hrank⟩

/-- Witness for C2: the two-node store after inserting octant path `[0]`
with payload `7`. -/
theorem sibling_ordering_witness :
    (insertAllM [([(0 : Fin 8)], 7)]
        = some [⟨1, 1, 42069⟩, ⟨U32MAX, 0, 7⟩]) ∧
    (∀ pr ∈ [([(0 : Fin 8)], 7)],
      ([⟨1, 1, 42069⟩, ⟨U32MAX, 0, 7⟩] : List Node).length + 9 + pr.1.length
        ≤ U32MAX) ∧
    ((nodeAt [⟨1, 1, 42069⟩, ⟨U32MAX, 0, 7⟩] 1).valid = 0 →
      (nodeAt [⟨1, 1, 42069⟩, ⟨U32MAX, 0, 7⟩] 1).child = U32MAX) :=
  ⟨by decide, by decide,
    (sibling_ordering [([(0 : Fin 8)], 7)] [⟨1, 1, 42069⟩, ⟨U32MAX, 0, 7⟩]
      (by decide) (by decide) 1 (by decide)).1⟩

/-- C3: lookup consistency.  After any panic-free sequence of insertions,
a path that was written resolves to a node whose payload is the last value
written at exactly that path, and a nonempty path that is not a prefix of
any inserted path does not resolve.  In particular, the depth-3 scenario
(inserting the hierarchy paths of `(0,0,0)`, `(1,0,0)`, `(0,1,0)` with
payloads `1, 2, 3` into a fresh store) yields a root mask holding exactly
the shared first octant bit, lookups returning payloads `1, 2, 3` at the
three coordinates, and `None` at `(7,7,7)`. -/
theorem lookup_consistency (ps : List (List (Fin 8) × Nat)) (data : List Node)
    (h : insertAllM ps = some data)
    (hroom : ∀ pr ∈ ps, data.length + 9 + pr.1.length ≤ U32MAX) :
    (∀ js vv, (js, vv) ∈ ps → ∃ n i w, getNodeGo data 0 (masksOf js) = some (n, i) ∧
      lastWrite ps js = some w ∧ n.block = w) ∧
    (∀ js : List (Fin 8), js ≠ [] → ¬ created ps js →
      getNodeGo data 0 (masksOf js) = none) ∧
    ((insertAll [(hierLevels 3 0 0 0, 1), (hierLevels 3 1 0 0, 2),
        (hierLevels 3 0 1 0, 3)]).map (fun d => (nodeAt d 0).valid) = some 1) ∧
    (((insertAll [(hierLevels 3 0 0 0, 1), (hierLevels 3 1 0 0, 2),
        (hierLevels 3 0 1 0, 3)]).bind
      (fun d => getNodeGo d 0 (hierLevels 3 0 0 0))).map (fun pr => pr.1.block)
        = some 1) ∧
    (((insertAll [(hierLevels 3 0 0 0, 1), (hierLevels 3 1 0 0, 2),
        (hierLevels 3 0 1 0, 3)]).bind
      (fun d => getNodeGo d 0 (hierLevels 3 1 0 0))).map (fun pr => pr.1.block)
        = some 2) ∧
    (((insertAll [(hierLevels 3 0 0 0, 1), (hierLevels 3 1 0 0, 2),
        (hierLevels 3 0 1 0, 3)]).bind
      (fun d => getNodeGo d 0 (hierLevels 3 0 1 0))).map (fun pr => pr.1.block)
        = some 3) ∧
    ((insertAll [(hierLevels 3 0 0 0, 1), (hierLevels 3 1 0 0, 2),
        (hierLevels 3 0 1 0, 3)]).map
      (fun d => getNodeGo d 0 (hierLevels 3 7 7 7)) = some none) := by
  obtain ⟨hpos, hinv, hsep, hres, hblk⟩ := insertAllM_good ps data h hroom
  refine ⟨?_, ?_, by decide, by decide, by decide, by decide, by decide⟩
  · intro js vv hmem
    have hcr : created ps js := ⟨(js, vv), hmem, [], by rw [List.append_nil]⟩
    have hso := (hres js).mpr (Or.inr hcr)
    obtain ⟨r, hr⟩ := Option.isSome_iff_exists.mp hso
    obtain ⟨w, hw⟩ := lastWrite_mem_some js ps vv hmem
    refine ⟨nodeAt data r, r, w, ?_, hw, ?_⟩
    · rw [getNodeGo_eq_resolve, hr]
      rfl
    · rw [hblk js r hr, hw]
      rfl
  · intro js hne hncr
    have hso : resolve data 0 js = none := by
      cases hreso : resolve data 0 js with
      | none => rfl
      | some r =>
        rcases (hres js).mp (by rw [hreso]; rfl) with h0 | hcr
        · exact absurd h0 hne
        · exact absurd hcr hncr
    rw [getNodeGo_eq_resolve, hso]
    rfl

def c3psF : List (List (Fin 8) × Nat) :=
  [([0, 0, 0], 1), ([0, 0, 4], 2), ([0, 0, 2], 3)]

def c3dataF : List Node := (insertAllM c3psF).getD []

/-- Witness for C3 at the depth-3 scenario store (octant-index form of the
three inserted hierarchy paths). -/
theorem lookup_consistency_witness :
    insertAllM c3psF = some c3dataF ∧
    (∀ pr ∈ c3psF, c3dataF.length + 9 + pr.1.length ≤ U32MAX) ∧
    (∃ n i w, getNodeGo c3dataF 0 (masksOf [0, 0, 4]) = some (n, i) ∧
      lastWrite c3psF [0, 0, 4] = some w ∧ n.block = w) :=
  ⟨by decide, by decide,
    (lookup_consistency c3psF c3dataF (by decide) (by decide)).1 [0, 0, 4] 2
      (by decide)⟩

/-- C7: inserting at the same hierarchy path twice in succession returns
the same node index both times; the second insertion adds no node and
changes no `valid` mask, so every ancestor's popcount after the second
insertion equals its value after the first. -/
theorem insertion_idempotent (ps : List (List (Fin 8) × Nat)) (data : List Node)
    (h : insertAllM ps = some data)
    (hroom : ∀ pr ∈ ps, data.length + 9 + pr.1.length ≤ U32MAX)
    (js : List (Fin 8)) (v w : Nat) (data1 : List Node) (i1 : Nat)
    (hins1 : insertPath data (masksOf js) v = some (data1, i1))
    (hbound : data.length + 9 + js.length ≤ U32MAX) :
    ∃ data2, insertPath data1 (masksOf js) w = some (data2, i1) ∧
      data2.length = data1.length ∧
      (∀ k, (nodeAt data2 k).valid = (nodeAt data1 k).valid) ∧
      (∀ k, popcount (nodeAt data2 k).valid = popcount (nodeAt data1 k).valid) := by
  have hgood := insertAllM_good ps data h hroom
  obtain ⟨hgood1, hmono, hub, hres1⟩ :=
    insertPath_good ps data hgood js v data1 i1 hins1 hbound
  have hA : addNodeGo data1 0 (masksOf js) = some (data1, i1) :=
    addNodeGo_of_resolve data1 js 0 i1 hres1
  refine ⟨data1.set i1 { nodeAt data1 i1 with block := w }, ?_, ?_, ?_, ?_⟩
  · unfold insertPath
    rw [hA]
    rfl
  · rw [List.length_set]
  · intro k
    exact (setBlock_shape data1 i1 w k).1
  · intro k
    rw [(setBlock_shape data1 i1 w k).1]

/-- Witness for C7: double insertion at octant path `[0]` from a fresh
store. -/
theorem insertion_idempotent_witness :
    insertPath octreeNew.data (masksOf [(0 : Fin 8)]) 7
        = some ([⟨1, 1, 42069⟩, ⟨U32MAX, 0, 7⟩], 1) ∧
    (∃ data2, insertPath [⟨1, 1, 42069⟩, ⟨U32MAX, 0, 7⟩] (masksOf [(0 : Fin 8)]) 9
        = some (data2, 1) ∧
      data2.length = ([⟨1, 1, 42069⟩, ⟨U32MAX, 0, 7⟩] : List Node).length ∧
      (∀ k, (nodeAt data2 k).valid
        = (nodeAt [⟨1, 1, 42069⟩, ⟨U32MAX, 0, 7⟩] k).valid) ∧
      (∀ k, popcount (nodeAt data2 k).valid
        = popcount (nodeAt [⟨1, 1, 42069⟩, ⟨U32MAX, 0, 7⟩] k).valid)) :=
  ⟨by decide,
    insertion_idempotent [] octreeNew.data rfl (by decide) [0] 7 9
      [⟨1, 1, 42069⟩, ⟨U32MAX, 0, 7⟩] 1 (by decide) (by decide)⟩

/-- C10: every node the store creates starts as the default node — the
root at construction, and every node `add_node` adds, carries child
`u32::MAX`, empty mask and payload `42069`.  Consequently lookup at any
strict prefix of an inserted path that was never itself a write target
returns a node whose payload is the sentinel `42069`. -/
theorem default_payload_sentinel (ps : List (List (Fin 8) × Nat)) (data : List Node)
    (h : insertAllM ps = some data)
    (hroom : ∀ pr ∈ ps, data.length + 9 + pr.1.length ≤ U32MAX) :
    octreeNew.data = [defaultNode] ∧
    defaultNode = { child := U32MAX, valid := 0, block := 42069 } ∧
    (∀ js : List (Fin 8),
      (∃ pr ∈ ps, ∃ t, t ≠ ([] : List (Fin 8)) ∧ pr.1 = js ++ t) →
      (∀ vv, (js, vv) ∉ ps) →
      ∃ n i, getNodeGo data 0 (masksOf js) = some (n, i) ∧ n.block = 42069) := by
  obtain ⟨hpos, hinv, hsep, hres, hblk⟩ := insertAllM_good ps data h hroom
  refine ⟨rfl, rfl, ?_⟩
  rintro js ⟨pr, hmem, t, htne, hpr⟩ hnw
  have hcr : created ps js := ⟨pr, hmem, t, hpr⟩
  have hso := (hres js).mpr (Or.inr hcr)
  obtain ⟨r, hr⟩ := Option.isSome_iff_exists.mp hso
  refine ⟨nodeAt data r, r, ?_, ?_⟩
  · rw [getNodeGo_eq_resolve, hr]
    rfl
  · rw [hblk js r hr]
    have hlw : lastWrite ps js = none := by
      cases hlw2 : lastWrite ps js with
      | none => rfl
      | some w =>
        obtain ⟨pr2, hmem2, heq2⟩ := lastWrite_some_mem js ps w hlw2
        refine absurd ?_ (hnw pr2.2)
        rw [← heq2]
        exact hmem2
    rw [hlw]
    rfl

def c10ps : List (List (Fin 8) × Nat) := [([0, 1], 5)]

def c10data : List Node := (insertAllM c10ps).getD []

/-- Witness for C10: after inserting the depth-2 octant path `[0, 1]`, its
strict prefix `[0]` resolves to a node carrying the default payload. -/
theorem default_payload_sentinel_witness :
    insertAllM c10ps = some c10data ∧
    (∀ pr ∈ c10ps, c10data.length + 9 + pr.1.length ≤ U32MAX) ∧
    (∃ n i, getNodeGo c10data 0 (masksOf [(0 : Fin 8)]) = some (n, i) ∧
      n.block = 42069) :=
  ⟨by decide, by decide,
    (default_payload_sentinel c10ps c10data (by decide) (by decide)).2.2 [0]
      ⟨([0, 1], 5), by decide, [(1 : Fin 8)], by decide, rfl⟩
      (fun vv hmem => by simp [c10ps] at hmem)⟩
